import Mathlib

/-!
# tx-archive: export engine, range resolver and legacy source

A shallow embedding of `backup/backup.go` (`ExecuteBackup`, `determineRightBound`,
`writeTxData`, `logProgress`) and of `restore/source/legacy/legacy.go` (`Legacy.Next`).

The external capabilities (client, writer, context, JSON codec, file system) are
fields of an environment `Env`.  Every client call and every `Write` appends one
event to a trace; an oracle of the environment is asked with the number of events
recorded so far, so a capability may answer differently each time it is used.
Go `uint64` values are natural numbers below `U64`; increments and subtractions
are reduced modulo `U64` as the machine does.
-/

namespace TxArchive

/-- Number of values of a Go `uint64`. -/
def U64 : Nat := 2 ^ 64

/-- The largest `uint64`. -/
def maxU64 : Nat := U64 - 1

abbrev Bytes := List UInt8

/-- Go errors: a leaf error, or `fmt.Errorf("msg, %w", inner)`. -/
inductive Error where
  | base (msg : String)
  | wrap (msg : String) (inner : Error)
deriving DecidableEq

/-- The chain walk of `errors.Is`: `wrapsErr e target` holds when `target` is `e` or is
wrapped somewhere inside `e`. -/
def wrapsErr : Error → Error → Bool
  | .base m, target => decide (Error.base m = target)
  | .wrap m inner, target => decide (Error.wrap m inner = target) || wrapsErr inner target

/-- The sentinel `io.EOF`. -/
def ioEOF : Error := .base "EOF"

/-- The struct `types.TxData` (types/types.go). -/
structure TxData (Tx : Type) where
  Tx : Tx
  BlockNum : Nat
  Timestamp : Int

/-- Modelled from the spec: the struct `Config` of backup/config.go, which is not among
the sources; section 3 (`ExportConfig`), with the field names that `ExecuteBackup` and
`TestConfig_ValidateConfig` use. -/
structure Config where
  ToBlock : Option Nat
  FromBlock : Nat
  Watch : Bool
  Overwrite : Bool
  OutputFile : String
deriving DecidableEq

/-- Externally visible operations of one run, in the order they happen. -/
inductive Event where
  | poll
  | fetch (block : Nat)
  | write (bs : Bytes)
deriving DecidableEq

/-- What `logger.Info` receives.  `progress` holds the values `logProgress` passes:
the count in the message, `total`, `from`, `to`, and the status before formatting. -/
inductive LogEntry where
  | stopped
  | complete
  | progress (count total frm toB : Nat) (status : Option ℚ)
deriving DecidableEq

/-- The capabilities `ExecuteBackup` runs against.  The `Nat` argument of an oracle is
the number of events recorded before the call. -/
structure Env (Tx : Type) where
  fileExists : String → Bool
  ctxDone : Nat → Bool
  GetLatestBlockNumber : Nat → Except Error Nat
  GetBlockTransactions : Nat → Nat → Except Error (List Tx)
  MarshalJSON : TxData Tx → Except Error Bytes
  /-- Answer of `Write`: `none` when it succeeds, `some (n, e)` when it fails with `e`
  after `n` bytes. -/
  Write : Nat → Bytes → Option (Nat × Error)

structure State where
  trace : List Event
  logs : List LogEntry
deriving DecidableEq

def State.init : State := ⟨[], []⟩

def State.push (st : State) (e : Event) : State := { st with trace := st.trace ++ [e] }

def State.info (st : State) (l : LogEntry) : State := { st with logs := st.logs ++ [l] }

/-- How a call of `ExecuteBackup` stands when the fuel is used up: it has returned
(with an error or `nil`), or it is still running. -/
inductive Outcome where
  | returned (err : Option Error)
  | running
deriving DecidableEq

structure Run where
  outcome : Outcome
  state : State
deriving DecidableEq

/-- How a `for` loop inside `ExecuteBackup` stands: its condition became false, its body
returned from the function, or it is still running. -/
inductive Loop where
  | exited (st : State)
  | returned (err : Option Error) (st : State)
  | running (st : State)
deriving DecidableEq

def Loop.state : Loop → State
  | .exited st => st
  | .returned _ st => st
  | .running st => st

/-- Blocks passed to `GetBlockTransactions`, in call order. -/
def fetchedBlocks : List Event → List Nat
  | [] => []
  | .fetch b :: rest => b :: fetchedBlocks rest
  | _ :: rest => fetchedBlocks rest

/-- Bytes that reached the writer, in order. -/
def sinkBytes : List Event → Bytes
  | [] => []
  | .write bs :: rest => bs ++ sinkBytes rest
  | _ :: rest => sinkBytes rest

section Backup

variable {Tx : Type}

/-- Modelled from the spec: `ValidateConfig` (backup/config.go is not among the sources)
and its three sentinel errors, following section 4.2 and `TestConfig_ValidateConfig`. -/
def errInvalidOutputLocation : Error := .base "invalid output location"

/-- Modelled from the spec: sentinel of `ValidateConfig` for an existing output file. -/
def errOutputFileExists : Error := .base "output file exists"

/-- Modelled from the spec: sentinel of `ValidateConfig` for `toBlock < fromBlock`. -/
def errInvalidRange : Error := .base "invalid backup block range"

/-- Modelled from the spec: `ValidateConfig` of backup/config.go, which is not among the
sources.  Section 4.2: empty output path, then existing output without overwrite,
then `toBlock` present and below `fromBlock`; first violation wins. -/
def ValidateConfig (fileExists : String → Bool) (cfg : Config) : Option Error :=
  if cfg.OutputFile = "" then some errInvalidOutputLocation
  else if fileExists cfg.OutputFile && !cfg.Overwrite then some errOutputFileExists
  else match cfg.ToBlock with
    | some t => if t < cfg.FromBlock then some errInvalidRange else none
    | none => none

/-- The call `writer.Write(p)`: the bytes that reach the writer are recorded as one event. -/
def writerWrite (env : Env Tx) (p : Bytes) (st : State) : Option Error × State :=
  match env.Write st.trace.length p with
  | none => (none, st.push (.write p))
  | some (n, e) => (some e, st.push (.write (p.take n)))

/-- The function `determineRightBound` (backup.go 146-164). -/
def determineRightBound (env : Env Tx) (potentialTo : Option Nat) (st : State) :
    Except Error Nat × State :=
  match env.GetLatestBlockNumber st.trace.length with
  | .error err => (.error (.wrap "unable to fetch latest block number" err), st.push .poll)
  | .ok latestBlockNumber =>
    match potentialTo with
    | some p =>
      if p < latestBlockNumber then (.ok p, st.push .poll)
      else (.ok latestBlockNumber, st.push .poll)
    | none => (.ok latestBlockNumber, st.push .poll)

/-- The function `writeTxData` (backup.go 167-187). -/
def writeTxData (env : Env Tx) (txData : TxData Tx) (st : State) : Option Error × State :=
  match env.MarshalJSON txData with
  | .error err => (some (.wrap "unable to marshal JSON data" err), st)
  | .ok jsonData =>
    match writerWrite env jsonData st with
    | (some err, st1) => (some (.wrap "unable to write to output" err), st1)
    | (none, st1) =>
      match writerWrite env [10] st1 with
      | (some err, st2) => (some (.wrap "unable to write newline output" err), st2)
      | (none, st2) => (none, st2)

/-- The status `logProgress` computes, before `%.2f` formatting, with the `float64`
operations taken exactly: `(float64(current) - float64(from)) / float64(total) * 100`
where `total` is `to - from` in `uint64`.  `none` is the non-finite result of a
division by zero. -/
def logProgressStatus (frm toB current : Nat) : Option ℚ :=
  let total := (toB + U64 - frm) % U64
  if total = 0 then none
  else some (((current : ℚ) - (frm : ℚ)) / (total : ℚ) * 100)

/-- The function `logProgress` (backup.go 190-201): the values handed to `logger.Info`,
the `uint64` ones reduced modulo `U64`. -/
def logProgress (frm toB current : Nat) (st : State) : State :=
  let total := (toB + U64 - frm) % U64
  st.info (.progress ((current + U64 - frm + 1) % U64) ((total + 1) % U64) frm toB
    (logProgressStatus frm toB current))

/-- The `for _, tx := range txs` loop of `fetchAndWrite` (backup.go 69-79). -/
def writeBlockTxs (env : Env Tx) (block : Nat) : List Tx → State → Option Error × State
  | [], st => (none, st)
  | tx :: rest, st =>
    match writeTxData env { Tx := tx, BlockNum := block, Timestamp := 0 } st with
    | (some writeErr, st1) => (some (.wrap "unable to write tx data" writeErr), st1)
    | (none, st1) => writeBlockTxs env block rest st1

/-- The closure `fetchAndWrite` (backup.go 57-85). -/
def fetchAndWrite (env : Env Tx) (cfg : Config) (toBlock block : Nat) (st : State) :
    Option Error × State :=
  match env.GetBlockTransactions st.trace.length block with
  | .error txErr =>
    (some (.wrap "unable to fetch block transactions" txErr), st.push (.fetch block))
  | .ok txs =>
    if txs.length = 0 then (none, st.push (.fetch block))
    else
      match writeBlockTxs env block txs (st.push (.fetch block)) with
      | (some err, st1) => (some err, st1)
      | (none, st1) => (none, logProgress cfg.FromBlock toBlock block st1)

/-- The historical loop `for block := cfg.FromBlock; block <= toBlock; block++`
(backup.go 88-99).  `block++` wraps at `U64`. -/
def historical (env : Env Tx) (cfg : Config) (toBlock : Nat) : Nat → Nat → State → Loop
  | 0, _, st => .running st
  | fuel + 1, block, st =>
    if block ≤ toBlock then
      if env.ctxDone st.trace.length then .returned none (st.info .stopped)
      else
        match fetchAndWrite env cfg toBlock block st with
        | (some fetchErr, st1) => .returned (some fetchErr) st1
        | (none, st1) => historical env cfg toBlock fuel ((block + 1) % U64) st1
    else .exited st

/-- The catch-up loop `for block := lastBlock + 1; block <= latest; block++`
(backup.go 127-131). -/
def catchUp (env : Env Tx) (cfg : Config) (toBlock latest : Nat) : Nat → Nat → State → Loop
  | 0, _, st => .running st
  | fuel + 1, block, st =>
    if block ≤ latest then
      match fetchAndWrite env cfg toBlock block st with
      | (some fetchErr, st1) => .returned (some fetchErr) st1
      | (none, st1) => catchUp env cfg toBlock latest fuel ((block + 1) % U64) st1
    else .exited st

/-- One round of the watch loop. -/
inductive Tick where
  | next (lastBlock : Nat) (st : State)
  | returned (err : Option Error) (st : State)
  | running (st : State)
deriving DecidableEq

/-- The body of the watch loop (backup.go 109-135): one `select`, and on a tick the
poll and the catch-up.  `fuel` bounds the catch-up loop. -/
def watchTick (env : Env Tx) (cfg : Config) (toBlock : Nat) (fuel lastBlock : Nat)
    (st : State) : Tick :=
  if env.ctxDone st.trace.length then .returned none (st.info .stopped)
  else
    match env.GetLatestBlockNumber st.trace.length with
    | .error latestErr =>
      .returned (some (.wrap "unable to fetch latest block number" latestErr)) (st.push .poll)
    | .ok latest =>
      if lastBlock = latest then .next lastBlock (st.push .poll)
      else
        match catchUp env cfg toBlock latest fuel ((lastBlock + 1) % U64) (st.push .poll) with
        | .returned err st1 => .returned err st1
        | .running st1 => .running st1
        | .exited st1 => .next latest st1

/-- The watch loop `for { select { ... } }` (backup.go 108-136). -/
def watch (env : Env Tx) (cfg : Config) (toBlock : Nat) : Nat → Nat → State → Run
  | 0, _, st => ⟨.running, st⟩
  | fuel + 1, lastBlock, st =>
    match watchTick env cfg toBlock fuel lastBlock st with
    | .returned err st1 => ⟨.returned err, st1⟩
    | .running st1 => ⟨.running, st1⟩
    | .next lastBlock1 st1 => watch env cfg toBlock fuel lastBlock1 st1

/-- The method `Service.ExecuteBackup` (backup.go 45-142).  `fuel` bounds the rounds of
each loop; `Outcome.running` is a run the fuel did not suffice to finish. -/
def ExecuteBackup (env : Env Tx) (cfg : Config) (fuel : Nat) : Run :=
  match ValidateConfig env.fileExists cfg with
  | some cfgErr => ⟨.returned (some (.wrap "invalid config" cfgErr)), State.init⟩
  | none =>
    match determineRightBound env cfg.ToBlock State.init with
    | (.error boundErr, st) =>
      ⟨.returned (some (.wrap "unable to determine right bound" boundErr)), st⟩
    | (.ok toBlock, st) =>
      match historical env cfg toBlock fuel cfg.FromBlock st with
      | .returned err st1 => ⟨.returned err, st1⟩
      | .running st1 => ⟨.running, st1⟩
      | .exited st1 =>
        if cfg.Watch then watch env cfg toBlock fuel toBlock st1
        else ⟨.returned none, st1.info .complete⟩

end Backup

section LegacySource

variable {Tx : Type}

/-- The constant `bufio.MaxScanTokenSize`, the buffer limit of a scanner made by
`bufio.NewScanner` on which `Buffer` is never called (legacy.go 32). -/
def MaxScanTokenSize : Nat := 64 * 1024

/-- The sentinel `bufio.ErrTooLong`. -/
def ErrTooLong : Error := .base "bufio.Scanner: token too long"

/-- The helper `dropCR` of `bufio.ScanLines`: a final carriage return is not part of the
token. -/
def dropCR (data : Bytes) : Bytes :=
  if data.getLast? = some 13 then data.dropLast else data

/-- The `bufio.Scanner` of a `Legacy` source, splitting with `bufio.ScanLines`.
`pending` are the lines of the file not yet scanned, each without its newline;
`readErr` is the error the reader returns after them (`none`: end of file);
`maxTokenSize` is the limit of the buffer; `err` is the scanner's field `err`, set once
the reader is finished (`io.EOF` included); `held` is what the buffer still holds when
`err` is set. -/
structure Scanner where
  pending : List Bytes
  readErr : Option Error
  maxTokenSize : Nat
  err : Option Error
  held : Option Bytes
deriving DecidableEq

/-- The call `bufio.NewScanner(file)` on a file with the given lines. -/
def NewScanner (lines : List Bytes) (readErr : Option Error) : Scanner :=
  { pending := lines, readErr := readErr, maxTokenSize := MaxScanTokenSize,
    err := none, held := none }

/-- The call `scanner.Scan()` followed by `scanner.Bytes()`: the next token, if `Scan`
returns true.  A line that with no newline fills the buffer (`maxTokenSize` bytes or
more) makes `Scan` fail with `ErrTooLong`; the full buffer is then handed out as a token
by the next `Scan`, as `ScanLines` does with what is left at the end of the input. -/
def Scanner.Scan (s : Scanner) : Option Bytes × Scanner :=
  match s.err with
  | some _ =>
    match s.held with
    | some data => (some (dropCR data), { s with held := none })
    | none => (none, s)
  | none =>
    match s.pending with
    | [] => (none, { s with err := some (s.readErr.getD ioEOF) })
    | line :: rest =>
      if line.length < s.maxTokenSize then (some (dropCR line), { s with pending := rest })
      else
        (none, { s with err := some ErrTooLong, held := some (line.take s.maxTokenSize) })

/-- The call `scanner.Err()`: the scanner's error, unless it is `io.EOF`. -/
def Scanner.Err (s : Scanner) : Option Error :=
  match s.err with
  | some e => if e = ioEOF then none else some e
  | none => none

/-- The struct `Legacy` (legacy.go 14-17); the file handle plays no part in `Next`. -/
structure Legacy where
  scanner : Scanner
deriving DecidableEq

/-- The method `Legacy.Next` (legacy.go 36-65): the pair `(*std.Tx, error)` and the source after
the call.  `ctxDone` is what the `select` observes and `unmarshal` is
`amino.UnmarshalJSON`. -/
def Legacy.Next (unmarshal : Bytes → Except Error Tx) (ctxDone : Bool) (l : Legacy) :
    (Option Tx × Option Error) × Legacy :=
  match l.scanner.Scan with
  | (some line, s) =>
    if ctxDone then ((none, some ioEOF), ⟨s⟩)
    else
      match unmarshal line with
      | .error err => ((none, some (.wrap "unable to unmarshal amino JSON" err)), ⟨s⟩)
      | .ok tx => ((some tx, none), ⟨s⟩)
  | (none, s) =>
    match s.Err with
    | some err => ((none, some (.wrap "unable to read legacy input file" err)), ⟨s⟩)
    | none => ((none, some ioEOF), ⟨s⟩)

/-- The function `NewLegacySource` (legacy.go 20-34) on a file that opens and has the
given lines. -/
def NewLegacySource (lines : List Bytes) (readErr : Option Error) : Legacy :=
  ⟨NewScanner lines readErr⟩

/-- The source after `k` calls of `Next` under a context that is never cancelled. -/
def Legacy.afterCalls (unmarshal : Bytes → Except Error Tx) : Nat → Legacy → Legacy
  | 0, l => l
  | k + 1, l => Legacy.afterCalls unmarshal k (Legacy.Next unmarshal false l).2

/-- What call number `k` (counting from 0) of `Next` returns, the context never being
cancelled. -/
def Legacy.nthCall (unmarshal : Bytes → Except Error Tx) (k : Nat) (l : Legacy) :
    Option Tx × Option Error :=
  (Legacy.Next unmarshal false (Legacy.afterCalls unmarshal k l)).1

end LegacySource

/-- Each number of the list is exactly one more than the number before it. -/
structure Contiguous (l : List Nat) : Prop where
  chain : List.Chain' (fun a b => b = a + 1) l

/-! ## What a faultless export is expected to produce -/

section Expected

variable {Tx : Type}

/-- The writes of one block: for each transaction its encoded record, then a newline. -/
def recordEvents (enc : TxData Tx → Bytes) (b : Nat) : List Tx → List Event
  | [] => []
  | tx :: rest => .write (enc ⟨tx, b, 0⟩) :: .write [10] :: recordEvents enc b rest

/-- The events of one block: its fetch, then its writes. -/
def blockEvents (enc : TxData Tx → Bytes) (chain : Nat → List Tx) (b : Nat) : List Event :=
  .fetch b :: recordEvents enc b (chain b)

/-- The events of the `n` blocks `b, b + 1, ..., b + n - 1`. -/
def rangeEvents (enc : TxData Tx → Bytes) (chain : Nat → List Tx) : Nat → Nat → List Event
  | _, 0 => []
  | b, n + 1 => blockEvents enc chain b ++ rangeEvents enc chain (b + 1) n

/-- The lines of one block: each transaction encoded with the block number, timestamp 0,
followed by one newline. -/
def blockLines (enc : TxData Tx → Bytes) (b : Nat) : List Tx → Bytes
  | [] => []
  | tx :: rest => enc ⟨tx, b, 0⟩ ++ [10] ++ blockLines enc b rest

/-- The archive of the `n` blocks `b, b + 1, ..., b + n - 1` in ascending order. -/
def archiveBytes (enc : TxData Tx → Bytes) (chain : Nat → List Tx) : Nat → Nat → Bytes
  | _, 0 => []
  | b, n + 1 => blockLines enc b (chain b) ++ archiveBytes enc chain (b + 1) n

/-- The block numbers `b, b + 1, ..., b + n - 1`. -/
def blockRange : Nat → Nat → List Nat
  | _, 0 => []
  | b, n + 1 => b :: blockRange (b + 1) n

end Expected

/-! ## Concrete environments used to evaluate the code -/

/-- A toy encoding of records whose payloads are numbers: payload byte, block byte. -/
def demoEnc (d : TxData Nat) : Bytes := [UInt8.ofNat d.Tx, UInt8.ofNat d.BlockNum]

/-- A toy JSON codec that never fails. -/
def demoMarshal (d : TxData Nat) : Except Error Bytes := .ok (demoEnc d)

/-- An environment with payload type `Nat` in which nothing fails and the context is
never cancelled: `latest` answers the polls, `chain` gives the blocks. -/
def demoEnv (latest : Nat → Nat) (chain : Nat → List Nat) : Env Nat where
  fileExists := fun _ => false
  ctxDone := fun _ => false
  GetLatestBlockNumber := fun t => .ok (latest t)
  GetBlockTransactions := fun _ b => .ok (chain b)
  MarshalJSON := demoMarshal
  Write := fun _ _ => none

/-- A config that exports from `frm`, with no upper bound. -/
def demoCfg (frm : Nat) (watchOn : Bool) : Config :=
  { ToBlock := none, FromBlock := frm, Watch := watchOn, Overwrite := false,
    OutputFile := "backup.jsonl" }

/-- A toy decoder that accepts every line: the payload is the length of the line. -/
def demoUnmarshalLen (line : Bytes) : Except Error Nat := .ok line.length

/-- A toy decoder: a line of exactly one byte decodes to that byte. -/
def demoUnmarshal : Bytes → Except Error Nat
  | [b] => .ok b.toNat
  | _ => .error (.base "malformed")

/-! ## Invariants used in the proofs -/

section Invariants

variable {Tx : Type}

/-- No recorded fetch was answered with an error. -/
def CleanTrace (env : Env Tx) (tr : List Event) : Prop :=
  ∀ i b, tr[i]? = some (.fetch b) → ∃ txs, env.GetBlockTransactions i b = .ok txs

/-- The trace ends with a fetch that was answered with an error, no earlier fetch was, and
`err` is that error wrapped by `fetchAndWrite`. -/
def StoppedAtFetch (env : Env Tx) (err : Option Error) (tr : List Event) : Prop :=
  ∃ pre b e, tr = pre ++ [.fetch b] ∧ CleanTrace env pre ∧
    env.GetBlockTransactions pre.length b = .error e ∧
    err = some (.wrap "unable to fetch block transactions" e)

/-- Every event of the list is a write. -/
def OnlyWrites (ws : List Event) : Prop := ∀ e, e ∈ ws → ∃ bs, e = .write bs

/-- The invariant of a loop for fetch failures. -/
def LoopClean (env : Env Tx) : Loop → Prop
  | .exited st => CleanTrace env st.trace
  | .running st => CleanTrace env st.trace
  | .returned err st => CleanTrace env st.trace ∨ StoppedAtFetch env err st.trace

/-- The invariant of a run for fetch failures. -/
def RunClean (env : Env Tx) (r : Run) : Prop :=
  CleanTrace env r.state.trace ∨
    ∃ err, r.outcome = .returned err ∧ StoppedAtFetch env err r.state.trace

/-- The invariant of a watch round for fetch failures. -/
def TickClean (env : Env Tx) : Tick → Prop
  | .next _ st => CleanTrace env st.trace
  | .running st => CleanTrace env st.trace
  | .returned err st => CleanTrace env st.trace ∨ StoppedAtFetch env err st.trace

/-- The fetched blocks are contiguous and, if any, the last one is `next - 1`. -/
def FetchInv (tr : List Event) (next : Nat) : Prop :=
  Contiguous (fetchedBlocks tr) ∧ ∀ x, x ∈ (fetchedBlocks tr).getLast? → x + 1 = next

/-- The invariant of the watch loop: the fetched blocks are contiguous, the last one, if
any, is the last observed height, and that height is at most a height the client
reported earlier in the run. -/
def WatchInv (env : Env Tx) (st : State) (lastBlock : Nat) : Prop :=
  Contiguous (fetchedBlocks st.trace) ∧
  (∀ x, x ∈ (fetchedBlocks st.trace).getLast? → x = lastBlock) ∧
  ∃ t a, t < st.trace.length ∧ env.GetLatestBlockNumber t = .ok a ∧ lastBlock ≤ a

/-- What a watch round keeps of the invariant. -/
def TickInv (env : Env Tx) : Tick → Prop
  | .next lastBlock st => WatchInv env st lastBlock
  | .running st => Contiguous (fetchedBlocks st.trace)
  | .returned _ st => Contiguous (fetchedBlocks st.trace)

end Invariants

/-! ## Trace lemmas -/

theorem fetchedBlocks_append (a b : List Event) :
    fetchedBlocks (a ++ b) = fetchedBlocks a ++ fetchedBlocks b := by
  induction a with
  | nil => rfl
  | cons e rest ih => cases e <;> simp [fetchedBlocks, ih]

theorem sinkBytes_append (a b : List Event) :
    sinkBytes (a ++ b) = sinkBytes a ++ sinkBytes b := by
  induction a with
  | nil => rfl
  | cons e rest ih => cases e <;> simp [sinkBytes, ih]

section Theorems

variable {Tx : Type}

/-! ## Range resolver -/

/-- C1: when the client returns the latest height `L`, `determineRightBound` returns the
requested bound if it is present and below `L`, and `L` in every other case (bound
absent, or bound at least `L`); so the result never exceeds `L`. -/
theorem determineRightBound_clamps (env : Env Tx) (potentialTo : Option Nat) (st : State)
    (L : Nat) (hL : env.GetLatestBlockNumber st.trace.length = .ok L) :
    (∀ p, potentialTo = some p → p < L →
        (determineRightBound env potentialTo st).1 = .ok p) ∧
    ((potentialTo = none ∨ ∃ p, potentialTo = some p ∧ L ≤ p) →
        (determineRightBound env potentialTo st).1 = .ok L) ∧
    (∃ r, (determineRightBound env potentialTo st).1 = .ok r ∧ r ≤ L) := by
  refine ⟨?_, ?_, ?_⟩
  · intro p hp hlt
    simp [determineRightBound, hL, hp, hlt]
  · rintro (h | ⟨p, hp, hle⟩)
    · simp [determineRightBound, hL, h]
    · simp [determineRightBound, hL, hp, Nat.not_lt.mpr hle]
  · cases potentialTo with
    | none => exact ⟨L, by simp [determineRightBound, hL], le_refl L⟩
    | some p =>
      by_cases hlt : p < L
      · exact ⟨p, by simp [determineRightBound, hL, hlt], le_of_lt hlt⟩
      · exact ⟨L, by simp [determineRightBound, hL, hlt], le_refl L⟩

/-- Witness of C1 at latest height 5: bound 3 is kept, bound 5 and no bound give 5. -/
theorem determineRightBound_clamps_witness :
    (determineRightBound (demoEnv (fun _ => 5) (fun _ => [])) (some 3) State.init).1 = .ok 3 ∧
    (determineRightBound (demoEnv (fun _ => 5) (fun _ => [])) (some 5) State.init).1 = .ok 5 ∧
    (determineRightBound (demoEnv (fun _ => 5) (fun _ => [])) none State.init).1 = .ok 5 :=
  ⟨(determineRightBound_clamps (demoEnv (fun _ => 5) (fun _ => [])) (some 3) State.init 5
      rfl).1 3 rfl (by decide),
   (determineRightBound_clamps (demoEnv (fun _ => 5) (fun _ => [])) (some 5) State.init 5
      rfl).2.1 (Or.inr ⟨5, rfl, le_refl 5⟩),
   (determineRightBound_clamps (demoEnv (fun _ => 5) (fun _ => [])) none State.init 5
      rfl).2.1 (Or.inl rfl)⟩

/-! ## Watch tick on an unchanged height -/

/-- C4: on a watch tick whose poll succeeds with the last observed height, the handler
only performs the poll: no block is fetched, no byte is written, the last observed
height stays, and the watch loop goes on to the next tick from there. -/
theorem watchTick_unchanged_height (env : Env Tx) (cfg : Config)
    (toBlock fuel lastBlock : Nat) (st : State)
    (hctx : env.ctxDone st.trace.length = false)
    (hlatest : env.GetLatestBlockNumber st.trace.length = .ok lastBlock) :
    watchTick env cfg toBlock fuel lastBlock st = .next lastBlock (st.push .poll) ∧
    fetchedBlocks (st.push .poll).trace = fetchedBlocks st.trace ∧
    sinkBytes (st.push .poll).trace = sinkBytes st.trace ∧
    watch env cfg toBlock (fuel + 1) lastBlock st
      = watch env cfg toBlock fuel lastBlock (st.push .poll) := by
  have h1 : watchTick env cfg toBlock fuel lastBlock st = .next lastBlock (st.push .poll) := by
    simp [watchTick, hctx, hlatest]
  refine ⟨h1, ?_, ?_, ?_⟩
  · simp [State.push, fetchedBlocks_append, fetchedBlocks]
  · simp [State.push, sinkBytes_append, sinkBytes]
  · simp [watch, h1]

/-- Witness of C4: last observed height 5 and a poll that answers 5. -/
theorem watchTick_unchanged_height_witness :
    watchTick (demoEnv (fun _ => 5) (fun _ => [7])) (demoCfg 1 true) 5 9 5 State.init
      = .next 5 (State.init.push .poll) :=
  (watchTick_unchanged_height (demoEnv (fun _ => 5) (fun _ => [7])) (demoCfg 1 true) 5 9 5
    State.init rfl rfl).1

/-! ## Config validation -/

/-- C7: `ValidateConfig` is decided by the first violation: empty output file, then an
existing output file without overwrite, then a present `ToBlock` below `FromBlock`;
otherwise the config is accepted.  When it rejects, `ExecuteBackup` returns an error that
wraps the rejection and has made no client call and no write. -/
theorem ValidateConfig_precedence (env : Env Tx) (cfg : Config) (fuel : Nat) :
    (cfg.OutputFile = "" →
        ValidateConfig env.fileExists cfg = some errInvalidOutputLocation) ∧
    (cfg.OutputFile ≠ "" → env.fileExists cfg.OutputFile = true → cfg.Overwrite = false →
        ValidateConfig env.fileExists cfg = some errOutputFileExists) ∧
    (cfg.OutputFile ≠ "" → (env.fileExists cfg.OutputFile = false ∨ cfg.Overwrite = true) →
        ∀ t, cfg.ToBlock = some t → t < cfg.FromBlock →
        ValidateConfig env.fileExists cfg = some errInvalidRange) ∧
    (cfg.OutputFile ≠ "" → (env.fileExists cfg.OutputFile = false ∨ cfg.Overwrite = true) →
        (cfg.ToBlock = none ∨ ∃ t, cfg.ToBlock = some t ∧ cfg.FromBlock ≤ t) →
        ValidateConfig env.fileExists cfg = none) ∧
    (∀ e, ValidateConfig env.fileExists cfg = some e →
        ∃ err, (ExecuteBackup env cfg fuel).outcome = .returned (some err) ∧
          wrapsErr err e = true ∧ (ExecuteBackup env cfg fuel).state.trace = []) := by
  refine ⟨?_, ?_, ?_, ?_, ?_⟩
  · intro h
    simp [ValidateConfig, h]
  · intro h hex hov
    simp [ValidateConfig, h, hex, hov]
  · intro h hor t ht hlt
    rcases hor with hex | hov
    · simp [ValidateConfig, h, hex, ht, hlt]
    · simp [ValidateConfig, h, hov, ht, hlt]
  · intro h hor hto
    have hsecond : (env.fileExists cfg.OutputFile && !cfg.Overwrite) = false := by
      rcases hor with hex | hov
      · simp [hex]
      · simp [hov]
    rcases hto with hnone | ⟨t, ht, hle⟩
    · simp [ValidateConfig, h, hsecond, hnone]
    · simp [ValidateConfig, h, hsecond, ht, Nat.not_lt.mpr hle]
  · intro e he
    refine ⟨.wrap "invalid config" e, ?_, ?_, ?_⟩
    · simp [ExecuteBackup, he]
    · cases e <;> simp [wrapsErr]
    · simp [ExecuteBackup, he, State.init]

/-- Witness of C7: one config for each branch, and a rejected config run through
`ExecuteBackup`. -/
theorem ValidateConfig_precedence_witness :
    ValidateConfig (fun _ => true) { demoCfg 1 false with OutputFile := "" }
      = some errInvalidOutputLocation ∧
    ValidateConfig (fun _ => true) (demoCfg 1 false) = some errOutputFileExists ∧
    ValidateConfig (fun _ => true)
      { demoCfg 10 false with Overwrite := true, ToBlock := some 9 } = some errInvalidRange ∧
    ValidateConfig (fun _ => true) { demoCfg 1 false with Overwrite := true } = none ∧
    (∃ err, (ExecuteBackup (demoEnv (fun _ => 5) (fun _ => [7]))
        { demoCfg 10 false with ToBlock := some 9 } 3).outcome = .returned (some err) ∧
      wrapsErr err errInvalidRange = true ∧
      (ExecuteBackup (demoEnv (fun _ => 5) (fun _ => [7]))
        { demoCfg 10 false with ToBlock := some 9 } 3).state.trace = []) :=
  ⟨(ValidateConfig_precedence
      { demoEnv (fun _ => 5) (fun _ => [7]) with fileExists := fun _ => true }
      { demoCfg 1 false with OutputFile := "" } 3).1 rfl,
   (ValidateConfig_precedence
      { demoEnv (fun _ => 5) (fun _ => [7]) with fileExists := fun _ => true }
      (demoCfg 1 false) 3).2.1 (by decide) rfl rfl,
   (ValidateConfig_precedence
      { demoEnv (fun _ => 5) (fun _ => [7]) with fileExists := fun _ => true }
      { demoCfg 10 false with Overwrite := true, ToBlock := some 9 } 3).2.2.1
      (by decide) (Or.inr rfl) 9 rfl (by decide),
   (ValidateConfig_precedence
      { demoEnv (fun _ => 5) (fun _ => [7]) with fileExists := fun _ => true }
      { demoCfg 1 false with Overwrite := true } 3).2.2.2.1
      (by decide) (Or.inr rfl) (Or.inl rfl),
   (ValidateConfig_precedence (demoEnv (fun _ => 5) (fun _ => [7]))
      { demoCfg 10 false with ToBlock := some 9 } 3).2.2.2.2 errInvalidRange (by decide)⟩

/-! ## Legacy source -/

theorem Legacy_afterCalls_add (unmarshal : Bytes → Except Error Tx) (a b : Nat) :
    ∀ l : Legacy, Legacy.afterCalls unmarshal (a + b) l
      = Legacy.afterCalls unmarshal b (Legacy.afterCalls unmarshal a l) := by
  induction a with
  | zero => intro l; simp [Legacy.afterCalls]
  | succ a ih =>
    intro l
    have h : a + 1 + b = (a + b) + 1 := by omega
    rw [h]
    simp only [Legacy.afterCalls]
    exact ih _

/-- While every line is below the token limit, `k` calls of `Next` consume `k` lines and
leave the scanner otherwise as it was. -/
theorem Legacy_afterCalls_short (unmarshal : Bytes → Except Error Tx)
    (readErr : Option Error) (M : Nat) (k : Nat) : ∀ lines : List Bytes,
    k ≤ lines.length → (∀ line, line ∈ lines → line.length < M) →
    Legacy.afterCalls unmarshal k ⟨⟨lines, readErr, M, none, none⟩⟩
      = ⟨⟨lines.drop k, readErr, M, none, none⟩⟩ := by
  induction k with
  | zero => intro lines _ _; simp [Legacy.afterCalls]
  | succ k ih =>
    intro lines hk hshort
    cases lines with
    | nil => simp at hk
    | cons line rest =>
      have hline : line.length < M := hshort line (by simp)
      have hrest := ih rest (by simpa using hk) (fun l hl => hshort l (by simp [hl]))
      cases hu : unmarshal (dropCR line) <;>
        simp [Legacy.afterCalls, Legacy.Next, Scanner.Scan, hline, hu, hrest]

/-- At the end of a file read without error, `Next` returns `io.EOF` and leaves the
scanner at the end. -/
theorem Legacy_Next_atEnd (unmarshal : Bytes → Except Error Tx) (M : Nat)
    (e : Option Error) (he : e = none ∨ e = some ioEOF) :
    Legacy.Next unmarshal false ⟨⟨[], none, M, e, none⟩⟩
      = ((none, some ioEOF), ⟨⟨[], none, M, some ioEOF, none⟩⟩) := by
  rcases he with he | he <;> subst he <;> simp [Legacy.Next, Scanner.Scan, Scanner.Err]

theorem Legacy_afterCalls_atEnd (unmarshal : Bytes → Except Error Tx) (M : Nat) (j : Nat) :
    ∀ e : Option Error, (e = none ∨ e = some ioEOF) →
    ∃ e1, (e1 = none ∨ e1 = some ioEOF) ∧
      Legacy.afterCalls unmarshal j ⟨⟨[], none, M, e, none⟩⟩ = ⟨⟨[], none, M, e1, none⟩⟩ := by
  induction j with
  | zero => intro e he; exact ⟨e, he, rfl⟩
  | succ j ih =>
    intro e he
    obtain ⟨e1, he1, h1⟩ := ih (some ioEOF) (Or.inr rfl)
    refine ⟨e1, he1, ?_⟩
    simp only [Legacy.afterCalls, Legacy_Next_atEnd unmarshal M e he]
    exact h1

/-- A line of `MaxScanTokenSize` bytes or more after one short line: the second call of
`Next` returns the scanner's `ErrTooLong` as a read error, and the third call decodes
the full buffer, the first `MaxScanTokenSize` bytes of the long line, not the next line. -/
theorem Legacy_Next_too_long (unmarshal : Bytes → Except Error Tx) (first long : Bytes)
    (rest : List Bytes) (readErr : Option Error)
    (hfirst : first.length < MaxScanTokenSize) (hlong : MaxScanTokenSize ≤ long.length) :
    Legacy.nthCall unmarshal 1 (NewLegacySource (first :: long :: rest) readErr)
      = (none, some (.wrap "unable to read legacy input file" ErrTooLong)) ∧
    Legacy.nthCall unmarshal 2 (NewLegacySource (first :: long :: rest) readErr)
      = (match unmarshal (dropCR (long.take MaxScanTokenSize)) with
        | .error err => (none, some (.wrap "unable to unmarshal amino JSON" err))
        | .ok tx => (some tx, none)) := by
  have hnot : ¬ long.length < MaxScanTokenSize := Nat.not_lt.mpr hlong
  refine ⟨?_, ?_⟩
  · cases hu : unmarshal (dropCR first) <;>
      simp [Legacy.nthCall, Legacy.afterCalls, NewLegacySource, NewScanner, Legacy.Next,
        Scanner.Scan, Scanner.Err, hfirst, hnot, hu, ErrTooLong, ioEOF]
  · cases hu : unmarshal (dropCR first) <;>
      cases hv : unmarshal (dropCR (long.take MaxScanTokenSize)) <;>
      simp [Legacy.nthCall, Legacy.afterCalls, NewLegacySource, NewScanner, Legacy.Next,
        Scanner.Scan, Scanner.Err, hfirst, hnot, hu, hv, ErrTooLong, ioEOF]

/-- C9 (counterexample): an archive of three lines whose second line has 70000 bytes, read
with a decoder that accepts every line.  The second line is well-formed, yet the second
call of `Next` returns no transaction and the scanner's `ErrTooLong` as a read error. -/
theorem Legacy_Next_line_too_long :
    (∃ tx, demoUnmarshalLen (dropCR (List.replicate 70000 97)) = .ok tx) ∧
    Legacy.nthCall demoUnmarshalLen 1
        (NewLegacySource [[1], List.replicate 70000 97, [3]] none)
      = (none, some (.wrap "unable to read legacy input file" ErrTooLong)) :=
  ⟨⟨_, rfl⟩,
   (Legacy_Next_too_long demoUnmarshalLen [1] (List.replicate 70000 97) [[3]] none
      (by decide) (by rw [List.length_replicate]; decide)).1⟩

/-- C9 (amended): over a legacy archive whose lines are all shorter than the scanner's
token limit of 65536 bytes, and a context that is never cancelled, call number `k` of
`Next` (from 0) returns the decoded transaction of line `k` when that line (without its
end-of-line marker) decodes, and no transaction together with an error that is not
`io.EOF` and wraps the decoder's error when it does not; once all lines are consumed
and the reader met no error, every call returns `io.EOF`. -/
theorem Legacy_Next_cursor (unmarshal : Bytes → Except Error Tx) (lines : List Bytes)
    (readErr : Option Error) (k : Nat)
    (hshort : ∀ line, line ∈ lines → line.length < MaxScanTokenSize) :
    (∀ line, lines[k]? = some line →
      (∀ tx, unmarshal (dropCR line) = .ok tx →
        Legacy.nthCall unmarshal k (NewLegacySource lines readErr) = (some tx, none)) ∧
      (∀ err, unmarshal (dropCR line) = .error err →
        ∃ e, Legacy.nthCall unmarshal k (NewLegacySource lines readErr) = (none, some e) ∧
          e ≠ ioEOF ∧ wrapsErr e err = true)) ∧
    (lines.length ≤ k → readErr = none →
      Legacy.nthCall unmarshal k (NewLegacySource lines readErr) = (none, some ioEOF)) := by
  refine ⟨?_, ?_⟩
  · intro line hline
    have hk : k < lines.length := by
      by_contra hge
      rw [List.getElem?_eq_none (Nat.le_of_not_lt hge)] at hline
      cases hline
    have hdrop : lines.drop k = line :: lines.drop (k + 1) := by
      rw [List.getElem?_eq_getElem hk] at hline
      cases hline
      exact List.drop_eq_getElem_cons hk
    have hline_short : line.length < MaxScanTokenSize :=
      hshort line (List.getElem?_mem hline)
    have hafter := Legacy_afterCalls_short unmarshal readErr MaxScanTokenSize k lines
      (Nat.le_of_lt hk) hshort
    refine ⟨?_, ?_⟩
    · intro tx htx
      simp [Legacy.nthCall, NewLegacySource, NewScanner, hafter, Legacy.Next, Scanner.Scan,
        hdrop, hline_short, htx]
    · intro err herr
      refine ⟨.wrap "unable to unmarshal amino JSON" err, ?_, ?_, ?_⟩
      · simp [Legacy.nthCall, NewLegacySource, NewScanner, hafter, Legacy.Next, Scanner.Scan,
          hdrop, hline_short, herr]
      · simp [ioEOF]
      · cases err <;> simp [wrapsErr]
  · intro hle hnone
    subst hnone
    obtain ⟨j, hj⟩ : ∃ j, k = lines.length + j := ⟨k - lines.length, by omega⟩
    have hafter := Legacy_afterCalls_short unmarshal none MaxScanTokenSize lines.length lines
      (le_refl _) hshort
    obtain ⟨e1, he1, hend⟩ := Legacy_afterCalls_atEnd unmarshal MaxScanTokenSize j none
      (Or.inl rfl)
    have hstate : Legacy.afterCalls unmarshal k (NewLegacySource lines none)
        = ⟨⟨[], none, MaxScanTokenSize, e1, none⟩⟩ := by
      rw [hj, Legacy_afterCalls_add]
      simp only [NewLegacySource, NewScanner]
      rw [hafter, List.drop_length]
      exact hend
    simp only [Legacy.nthCall, hstate, Legacy_Next_atEnd unmarshal MaxScanTokenSize e1 he1]

/-- Witness of C9 (amended): an archive of three short lines whose second line is
malformed; calls 0 and 1 answer for lines 0 and 1, call 3 is past the end. -/
theorem Legacy_Next_cursor_witness :
    Legacy.nthCall demoUnmarshal 0 (NewLegacySource [[1], [], [3]] none) = (some 1, none) ∧
    (∃ e, Legacy.nthCall demoUnmarshal 1 (NewLegacySource [[1], [], [3]] none)
        = (none, some e) ∧
      e ≠ ioEOF ∧ wrapsErr e (.base "malformed") = true) ∧
    Legacy.nthCall demoUnmarshal 3 (NewLegacySource [[1], [], [3]] none)
      = (none, some ioEOF) :=
  ⟨((Legacy_Next_cursor demoUnmarshal [[1], [], [3]] none 0 (by decide)).1 [1] rfl).1 1 rfl,
   ((Legacy_Next_cursor demoUnmarshal [[1], [], [3]] none 1 (by decide)).1 [] rfl).2
      (.base "malformed") rfl,
   (Legacy_Next_cursor demoUnmarshal [[1], [], [3]] none 3 (by decide)).2 (by decide) rfl⟩

/-! ## Progress observation -/

/-- C8 (the code at a failing input): exporting blocks 1 to 5 with one transaction per
block, the first progress observation, made after block 1, reports count 1 and span 5
but status 0, where `(current - from + 1) / (to - from + 1) * 100` is 20; and for a
single-block export (`from = to = current`) the status is a division by zero, not 100. -/
theorem logProgress_status_off_by_one :
    (ExecuteBackup (demoEnv (fun _ => 5) (fun b => [b])) (demoCfg 1 false) 9).state.logs.head?
      = some (.progress 1 5 1 5 (some 0)) ∧
    ((1 - 1 + 1 : ℚ) / (5 - 1 + 1) * 100 = 20) ∧
    logProgressStatus 5 5 5 = none := by
  refine ⟨?_, by norm_num, ?_⟩
  · simp [ExecuteBackup, ValidateConfig, demoCfg, demoEnv, determineRightBound, historical,
      fetchAndWrite, writeBlockTxs, writeTxData, writerWrite, demoMarshal, logProgress,
      logProgressStatus, State.push, State.info, State.init, U64, demoEnc]
  · simp [logProgressStatus, U64]

/-! ## Lower bound of the export -/

/-- C10 (the code at a failing input): with `FromBlock = 10`, watch set, and a chain at
height 5 when the bound is resolved and at height 7 at the first watch poll, the config
is valid and `ExecuteBackup` fetches blocks 6 and 7, both below `FromBlock`. -/
theorem ExecuteBackup_watch_below_FromBlock :
    ValidateConfig (demoEnv (fun t => if t = 0 then 5 else 7) (fun _ => [])).fileExists
      (demoCfg 10 true) = none ∧
    fetchedBlocks (ExecuteBackup (demoEnv (fun t => if t = 0 then 5 else 7) (fun _ => []))
      (demoCfg 10 true) 6).state.trace = [6, 7] := by
  refine ⟨by decide, ?_⟩
  decide

/-! ## Runs in which nothing fails -/

theorem writeTxData_ok (env : Env Tx) (enc : TxData Tx → Bytes) (T : Nat)
    (hwrite : ∀ t, t < T → ∀ p, env.Write t p = none)
    (d : TxData Tx) (st : State) (hm : env.MarshalJSON d = .ok (enc d))
    (hT : st.trace.length + 2 ≤ T) :
    writeTxData env d st = (none, ⟨st.trace ++ [.write (enc d), .write [10]], st.logs⟩) := by
  have h1 : env.Write st.trace.length (enc d) = none := hwrite _ (by omega) _
  have h2 : env.Write (st.trace.length + 1) [10] = none := hwrite _ (by omega) _
  simp [writeTxData, hm, writerWrite, h1, h2, State.push]

theorem recordEvents_length (enc : TxData Tx → Bytes) (b : Nat) (txs : List Tx) :
    (recordEvents enc b txs).length = 2 * txs.length := by
  induction txs with
  | nil => rfl
  | cons tx rest ih => simp [recordEvents, ih]; omega

theorem writeBlockTxs_ok (env : Env Tx) (enc : TxData Tx → Bytes) (T : Nat)
    (hwrite : ∀ t, t < T → ∀ p, env.Write t p = none) (b : Nat) (txs : List Tx) :
    ∀ st : State,
    (∀ tx, tx ∈ txs → env.MarshalJSON ⟨tx, b, 0⟩ = .ok (enc ⟨tx, b, 0⟩)) →
    st.trace.length + 2 * txs.length ≤ T →
    writeBlockTxs env b txs st = (none, ⟨st.trace ++ recordEvents enc b txs, st.logs⟩) := by
  induction txs with
  | nil => intro st _ _; simp [writeBlockTxs, recordEvents]
  | cons tx rest ih =>
    intro st hm hT
    have hlen : (tx :: rest).length = rest.length + 1 := rfl
    have h1 := writeTxData_ok env enc T hwrite ⟨tx, b, 0⟩ st (hm tx (by simp)) (by omega)
    have h2 := ih ⟨st.trace ++ [.write (enc ⟨tx, b, 0⟩), .write [10]], st.logs⟩
      (fun tx1 h => hm tx1 (by simp [h])) (by simp; omega)
    simp [writeBlockTxs, h1, h2, recordEvents]

theorem fetchedBlocks_recordEvents (enc : TxData Tx → Bytes) (b : Nat) (txs : List Tx) :
    fetchedBlocks (recordEvents enc b txs) = [] := by
  induction txs with
  | nil => rfl
  | cons tx rest ih => simp [recordEvents, fetchedBlocks, ih]

theorem sinkBytes_recordEvents (enc : TxData Tx → Bytes) (b : Nat) (txs : List Tx) :
    sinkBytes (recordEvents enc b txs) = blockLines enc b txs := by
  induction txs with
  | nil => rfl
  | cons tx rest ih => simp [recordEvents, sinkBytes, blockLines, ih]

theorem fetchedBlocks_rangeEvents (enc : TxData Tx → Bytes) (chain : Nat → List Tx)
    (n : Nat) : ∀ b, fetchedBlocks (rangeEvents enc chain b n) = blockRange b n := by
  induction n with
  | zero => intro b; rfl
  | succ n ih =>
    intro b
    simp [rangeEvents, blockEvents, fetchedBlocks, fetchedBlocks_append,
      fetchedBlocks_recordEvents, blockRange, ih]

theorem sinkBytes_rangeEvents (enc : TxData Tx → Bytes) (chain : Nat → List Tx)
    (n : Nat) : ∀ b, sinkBytes (rangeEvents enc chain b n) = archiveBytes enc chain b n := by
  induction n with
  | zero => intro b; rfl
  | succ n ih =>
    intro b
    simp [rangeEvents, blockEvents, sinkBytes, sinkBytes_append,
      sinkBytes_recordEvents, archiveBytes, ih]

theorem mem_blockRange (n : Nat) : ∀ b x, x ∈ blockRange b n ↔ b ≤ x ∧ x < b + n := by
  induction n with
  | zero => intro b x; simp [blockRange]
  | succ n ih =>
    intro b x
    simp only [blockRange, List.mem_cons, ih]
    omega

theorem fetchAndWrite_ok (env : Env Tx) (enc : TxData Tx → Bytes) (chain : Nat → List Tx)
    (T : Nat) (hwrite : ∀ t, t < T → ∀ p, env.Write t p = none)
    (cfg : Config) (toBlock b : Nat) (st : State)
    (hfetch : env.GetBlockTransactions st.trace.length b = .ok (chain b))
    (hm : ∀ tx, tx ∈ chain b → env.MarshalJSON ⟨tx, b, 0⟩ = .ok (enc ⟨tx, b, 0⟩))
    (hT : st.trace.length + (blockEvents enc chain b).length ≤ T) :
    ∃ st1, fetchAndWrite env cfg toBlock b st = (none, st1) ∧
      st1.trace = st.trace ++ blockEvents enc chain b := by
  by_cases hempty : (chain b).length = 0
  · refine ⟨st.push (.fetch b), ?_, ?_⟩
    · simp [fetchAndWrite, hfetch, hempty]
    · have : chain b = [] := List.length_eq_zero.mp hempty
      simp [State.push, blockEvents, this, recordEvents]
  · have hlen : (blockEvents enc chain b).length = 2 * (chain b).length + 1 := by
      simp [blockEvents, recordEvents_length]
    have h2 := writeBlockTxs_ok env enc T hwrite b (chain b) (st.push (.fetch b)) hm
      (by simp [State.push]; omega)
    refine ⟨logProgress cfg.FromBlock toBlock b
      ⟨(st.push (.fetch b)).trace ++ recordEvents enc b (chain b), (st.push (.fetch b)).logs⟩,
      ?_, ?_⟩
    · simp [fetchAndWrite, hfetch, hempty, h2]
    · simp [logProgress, State.info, State.push, blockEvents]

/-- Peeling `n` rounds off the historical loop: when the next `n` blocks are within the
bound and the context, the client, the codec and the writer all answer without fault
during these rounds, the loop reaches block `b + n` having appended exactly the events
of these blocks. -/
theorem historical_peel (env : Env Tx) (enc : TxData Tx → Bytes) (chain : Nat → List Tx)
    (T : Nat) (cfg : Config) (toBlock : Nat)
    (hctx : ∀ t, t < T → env.ctxDone t = false)
    (hfetch : ∀ t, t < T → ∀ b, env.GetBlockTransactions t b = .ok (chain b))
    (hwrite : ∀ t, t < T → ∀ p, env.Write t p = none)
    (n : Nat) : ∀ (fuel b : Nat) (st : State),
    b + n ≤ toBlock + 1 → b + n < U64 →
    (∀ x, b ≤ x → x < b + n → ∀ tx, tx ∈ chain x →
      env.MarshalJSON ⟨tx, x, 0⟩ = .ok (enc ⟨tx, x, 0⟩)) →
    st.trace.length + (rangeEvents enc chain b n).length ≤ T →
    ∃ st1, historical env cfg toBlock (fuel + n) b st
        = historical env cfg toBlock fuel (b + n) st1 ∧
      st1.trace = st.trace ++ rangeEvents enc chain b n := by
  induction n with
  | zero =>
    intro fuel b st _ _ _ _
    exact ⟨st, rfl, by simp [rangeEvents]⟩
  | succ n ih =>
    intro fuel b st hle hlt hm hT
    have hlen : (rangeEvents enc chain b (n + 1)).length
        = (blockEvents enc chain b).length + (rangeEvents enc chain (b + 1) n).length := by
      simp [rangeEvents]
    have hpos : 1 ≤ (blockEvents enc chain b).length := by simp [blockEvents]
    obtain ⟨st1, h1, htr1⟩ := fetchAndWrite_ok env enc chain T hwrite cfg toBlock b st
      (hfetch _ (by omega) b) (hm b (le_refl b) (by omega)) (by omega)
    obtain ⟨st2, h2, htr2⟩ := ih fuel (b + 1) st1 (by omega) (by omega)
      (fun x hx1 hx2 => hm x (by omega) (by omega))
      (by rw [htr1, List.length_append]; omega)
    refine ⟨st2, ?_, ?_⟩
    · have hb : b ≤ toBlock := by omega
      have hc : env.ctxDone st.trace.length = false := hctx _ (by omega)
      have hmod : (b + 1) % U64 = b + 1 := Nat.mod_eq_of_lt (by omega)
      have hfuel : fuel + (n + 1) = (fuel + n) + 1 := by omega
      rw [hfuel]
      simp only [historical, hb, hc, h1, hmod, if_true, Bool.false_eq_true, if_false, h2]
      congr 1
      omega
    · rw [htr2, htr1, rangeEvents, List.append_assoc]

theorem determineRightBound_state (env : Env Tx) (potentialTo : Option Nat) (st : State) :
    (determineRightBound env potentialTo st).2 = st.push .poll := by
  unfold determineRightBound
  split
  · rfl
  · split
    · split <;> rfl
    · rfl

theorem determineRightBound_le (env : Env Tx) (potentialTo : Option Nat) (st : State)
    (toBlock : Nat) (hto : (determineRightBound env potentialTo st).1 = .ok toBlock) :
    ∃ L, env.GetLatestBlockNumber st.trace.length = .ok L ∧ toBlock ≤ L := by
  unfold determineRightBound at hto
  cases hL : env.GetLatestBlockNumber st.trace.length with
  | error e => simp [hL] at hto
  | ok L =>
    refine ⟨L, rfl, ?_⟩
    cases potentialTo with
    | none =>
      simp [hL] at hto
      omega
    | some p =>
      by_cases hlt : p < L
      · simp [hL, hlt] at hto
        omega
      · simp [hL, hlt] at hto
        omega

/-- For every resolved bound below the largest `uint64`: a valid config with watch unset,
a context that is never cancelled and a client, codec and writer that never fail make
`ExecuteBackup` return `nil` (given fuel for the rounds of the loop), having fetched the
blocks `FromBlock, ..., toBlock` in ascending order and written exactly their lines. -/
theorem ExecuteBackup_exports_range (env : Env Tx) (enc : TxData Tx → Bytes)
    (chain : Nat → List Tx) (cfg : Config) (toBlock fuel : Nat)
    (hvalid : ValidateConfig env.fileExists cfg = none)
    (hwatch : cfg.Watch = false)
    (hto : (determineRightBound env cfg.ToBlock State.init).1 = .ok toBlock)
    (hmax : toBlock < maxU64)
    (hctx : ∀ t, env.ctxDone t = false)
    (hfetch : ∀ t b, env.GetBlockTransactions t b = .ok (chain b))
    (hm : ∀ d, env.MarshalJSON d = .ok (enc d))
    (hwrite : ∀ t p, env.Write t p = none)
    (hfuel : toBlock + 1 - cfg.FromBlock < fuel) :
    (ExecuteBackup env cfg fuel).outcome = .returned none ∧
    fetchedBlocks (ExecuteBackup env cfg fuel).state.trace
      = blockRange cfg.FromBlock (toBlock + 1 - cfg.FromBlock) ∧
    sinkBytes (ExecuteBackup env cfg fuel).state.trace
      = archiveBytes enc chain cfg.FromBlock (toBlock + 1 - cfg.FromBlock) := by
  have hpair : determineRightBound env cfg.ToBlock State.init
      = (.ok toBlock, State.init.push .poll) :=
    Prod.ext hto (determineRightBound_state env cfg.ToBlock State.init)
  have hU : maxU64 + 1 = U64 := by decide
  obtain ⟨k, hk⟩ : ∃ k, fuel = (k + 1) + (toBlock + 1 - cfg.FromBlock) :=
    ⟨fuel - 1 - (toBlock + 1 - cfg.FromBlock), by omega⟩
  by_cases hle : cfg.FromBlock ≤ toBlock
  · obtain ⟨st1, h1, htr1⟩ := historical_peel env enc chain
      ((State.init.push .poll).trace.length +
        (rangeEvents enc chain cfg.FromBlock (toBlock + 1 - cfg.FromBlock)).length)
      cfg toBlock (fun t _ => hctx t) (fun t _ b => hfetch t b) (fun t _ p => hwrite t p)
      (toBlock + 1 - cfg.FromBlock) (k + 1) cfg.FromBlock (State.init.push .poll)
      (by omega) (by omega) (fun x _ _ tx _ => hm _) (le_refl _)
    have hnext : cfg.FromBlock + (toBlock + 1 - cfg.FromBlock) = toBlock + 1 := by omega
    rw [hnext] at h1
    have hrun : ExecuteBackup env cfg fuel = ⟨.returned none, st1.info .complete⟩ := by
      simp [ExecuteBackup, hvalid, hpair, hk, h1, historical, hwatch]
    rw [hrun]
    refine ⟨rfl, ?_, ?_⟩
    · simp [State.info, htr1, State.push, State.init, fetchedBlocks_append, fetchedBlocks,
        fetchedBlocks_rangeEvents]
    · simp [State.info, htr1, State.push, State.init, sinkBytes_append, sinkBytes,
        sinkBytes_rangeEvents]
  · have hzero : toBlock + 1 - cfg.FromBlock = 0 := by omega
    have hrun : ExecuteBackup env cfg fuel
        = ⟨.returned none, (State.init.push .poll).info .complete⟩ := by
      simp [ExecuteBackup, hvalid, hpair, hk, hzero, historical, hle, hwatch]
    rw [hrun, hzero]
    refine ⟨rfl, ?_, ?_⟩
    · simp [State.info, State.push, State.init, fetchedBlocks, blockRange]
    · simp [State.info, State.push, State.init, sinkBytes, archiveBytes]

/-- The scenario of the spec: `FromBlock = 1`, latest height 5, `ToBlock` unset, blocks
2 and 4 empty, blocks 1, 3, 5 with one transaction each.  `ExecuteBackup` returns `nil`
and the archive has exactly three lines, for blocks 1, 3, 5 in that order (the toy
codec writes the payload byte and the block byte). -/
theorem ExecuteBackup_scenario :
    ExecuteBackup (demoEnv (fun _ => 5) (fun b => if b % 2 = 1 then [100 + b] else []))
        (demoCfg 1 false) 6
      = ⟨.returned none,
         ⟨[.poll, .fetch 1, .write [101, 1], .write [10], .fetch 2,
           .fetch 3, .write [103, 3], .write [10], .fetch 4,
           .fetch 5, .write [105, 5], .write [10]],
          [.progress 1 5 1 5 (some 0), .progress 3 5 1 5 (some 50),
           .progress 5 5 1 5 (some 100), .complete]⟩⟩ ∧
    sinkBytes (ExecuteBackup (demoEnv (fun _ => 5)
        (fun b => if b % 2 = 1 then [100 + b] else [])) (demoCfg 1 false) 6).state.trace
      = [101, 1, 10, 103, 3, 10, 105, 5, 10] := by
  have h : ExecuteBackup (demoEnv (fun _ => 5) (fun b => if b % 2 = 1 then [100 + b] else []))
        (demoCfg 1 false) 6
      = ⟨.returned none,
         ⟨[.poll, .fetch 1, .write [101, 1], .write [10], .fetch 2,
           .fetch 3, .write [103, 3], .write [10], .fetch 4,
           .fetch 5, .write [105, 5], .write [10]],
          [.progress 1 5 1 5 (some 0), .progress 3 5 1 5 (some 50),
           .progress 5 5 1 5 (some 100), .complete]⟩⟩ := by
    simp [ExecuteBackup, ValidateConfig, demoCfg, demoEnv, determineRightBound, historical,
      fetchAndWrite, writeBlockTxs, writeTxData, writerWrite, demoMarshal, logProgress,
      logProgressStatus, State.push, State.info, State.init, U64, demoEnc]
    norm_num
  refine ⟨h, ?_⟩
  rw [h]
  rfl

/-! ## The loop at the largest `uint64` -/

/-- With the bound at the largest `uint64` every `uint64` block number satisfies the loop
condition and `block++` wraps from the bound to 0, so in a run where nothing fails and
the context is never cancelled the historical loop is still running whatever fuel it
is given. -/
theorem historical_maxU64_running (env : Env Tx) (enc : TxData Tx → Bytes)
    (chain : Nat → List Tx) (cfg : Config)
    (hctx : ∀ t, env.ctxDone t = false)
    (hfetch : ∀ t b, env.GetBlockTransactions t b = .ok (chain b))
    (hm : ∀ d, env.MarshalJSON d = .ok (enc d))
    (hwrite : ∀ t p, env.Write t p = none)
    (fuel : Nat) : ∀ (b : Nat) (st : State), b < U64 →
    ∃ st1, historical env cfg maxU64 fuel b st = .running st1 := by
  induction fuel with
  | zero => intro b st _; exact ⟨st, rfl⟩
  | succ fuel ih =>
    intro b st hb
    obtain ⟨st1, h1, _⟩ := fetchAndWrite_ok env enc chain
      (st.trace.length + (blockEvents enc chain b).length) (fun t _ p => hwrite t p)
      cfg maxU64 b st (hfetch _ b) (fun tx _ => hm _) (le_refl _)
    have hle : b ≤ maxU64 := by
      have : maxU64 + 1 = U64 := by decide
      omega
    obtain ⟨st2, h2⟩ := ih ((b + 1) % U64) st1 (Nat.mod_lt _ (by decide))
    exact ⟨st2, by simp [historical, hle, hctx, h1, h2]⟩

/-- C2 (the code at a failing input): the chain is at height `2^64 - 1`, `ToBlock` is
unset and `FromBlock = 2^64 - 1`, every block holds one transaction, nothing fails and
the context is never cancelled.  The config is valid and the resolved bound is
`2^64 - 1`, yet `ExecuteBackup` has not returned after any number of loop rounds, and
after block `2^64 - 1` it fetches blocks 0 and 1, which lie outside the range. -/
theorem ExecuteBackup_maxU64_never_returns :
    ValidateConfig (demoEnv (fun _ => maxU64) (fun b => [b])).fileExists
      (demoCfg maxU64 false) = none ∧
    (determineRightBound (demoEnv (fun _ => maxU64) (fun b => [b]))
      (demoCfg maxU64 false).ToBlock State.init).1 = .ok maxU64 ∧
    (∀ fuel, (ExecuteBackup (demoEnv (fun _ => maxU64) (fun b => [b]))
      (demoCfg maxU64 false) fuel).outcome = .running) ∧
    fetchedBlocks (ExecuteBackup (demoEnv (fun _ => maxU64) (fun b => [b]))
      (demoCfg maxU64 false) 3).state.trace = [maxU64, 0, 1] := by
  refine ⟨by decide, rfl, ?_, by decide⟩
  intro fuel
  obtain ⟨st1, h1⟩ := historical_maxU64_running (demoEnv (fun _ => maxU64) (fun b => [b]))
    demoEnc (fun b => [b]) (demoCfg maxU64 false)
    (fun _ => rfl) (fun _ _ => rfl) (fun _ => rfl) (fun _ _ => rfl) fuel maxU64
    (State.init.push .poll) (by decide)
  have hpair : determineRightBound (demoEnv (fun _ => maxU64) (fun b => [b]))
      (demoCfg maxU64 false).ToBlock State.init = (.ok maxU64, State.init.push .poll) := rfl
  have hvalid : ValidateConfig (demoEnv (fun _ => maxU64) (fun b => [b])).fileExists
      (demoCfg maxU64 false) = none := by decide
  have hfrom : (demoCfg maxU64 false).FromBlock = maxU64 := rfl
  simp only [ExecuteBackup, hvalid, hpair, hfrom, h1]

/-! ## Cancellation -/

/-- C5: when the historical loop observes the context cancelled at its check before block
`b` (`FromBlock ≤ b ≤` resolved bound) and the context, the client, the codec and the
writer answered without fault until then, `ExecuteBackup` returns `nil`, the blocks it
fetched are exactly `FromBlock, ..., b - 1` (so neither `b` nor a later block), and the
writer holds exactly the complete lines of these blocks.  Likewise the watch loop, when
its wait observes the context cancelled, returns `nil` with the trace as it was. -/
theorem ExecuteBackup_cancelled_before_block (env : Env Tx) (enc : TxData Tx → Bytes)
    (chain : Nat → List Tx) (cfg : Config) (toBlock b fuel : Nat)
    (hvalid : ValidateConfig env.fileExists cfg = none)
    (hto : (determineRightBound env cfg.ToBlock State.init).1 = .ok toBlock)
    (hb1 : cfg.FromBlock ≤ b) (hb2 : b ≤ toBlock) (hU : toBlock < U64)
    (hctx : ∀ t, t < 1 + (rangeEvents enc chain cfg.FromBlock (b - cfg.FromBlock)).length →
      env.ctxDone t = false)
    (hcancel :
      env.ctxDone (1 + (rangeEvents enc chain cfg.FromBlock (b - cfg.FromBlock)).length) = true)
    (hfetch : ∀ t, t < 1 + (rangeEvents enc chain cfg.FromBlock (b - cfg.FromBlock)).length →
      ∀ x, env.GetBlockTransactions t x = .ok (chain x))
    (hm : ∀ x, cfg.FromBlock ≤ x → x < b → ∀ tx, tx ∈ chain x →
      env.MarshalJSON ⟨tx, x, 0⟩ = .ok (enc ⟨tx, x, 0⟩))
    (hwrite : ∀ t, t < 1 + (rangeEvents enc chain cfg.FromBlock (b - cfg.FromBlock)).length →
      ∀ p, env.Write t p = none)
    (hfuel : b - cfg.FromBlock < fuel) :
    ((ExecuteBackup env cfg fuel).outcome = .returned none ∧
      fetchedBlocks (ExecuteBackup env cfg fuel).state.trace
        = blockRange cfg.FromBlock (b - cfg.FromBlock) ∧
      (∀ x, x ∈ fetchedBlocks (ExecuteBackup env cfg fuel).state.trace → x < b) ∧
      sinkBytes (ExecuteBackup env cfg fuel).state.trace
        = archiveBytes enc chain cfg.FromBlock (b - cfg.FromBlock)) ∧
    (∀ (env1 : Env Tx) (cfg1 : Config) (toBlock1 fuel1 lastBlock : Nat) (st : State),
      env1.ctxDone st.trace.length = true →
      (watch env1 cfg1 toBlock1 (fuel1 + 1) lastBlock st).outcome = .returned none ∧
      (watch env1 cfg1 toBlock1 (fuel1 + 1) lastBlock st).state.trace = st.trace) := by
  refine ⟨?_, ?_⟩
  · have hpair : determineRightBound env cfg.ToBlock State.init
        = (.ok toBlock, State.init.push .poll) :=
      Prod.ext hto (determineRightBound_state env cfg.ToBlock State.init)
    obtain ⟨k, hk⟩ : ∃ k, fuel = (k + 1) + (b - cfg.FromBlock) :=
      ⟨fuel - 1 - (b - cfg.FromBlock), by omega⟩
    have hlen0 : (State.init.push .poll).trace.length = 1 := rfl
    obtain ⟨st1, h1, htr1⟩ := historical_peel env enc chain
      (1 + (rangeEvents enc chain cfg.FromBlock (b - cfg.FromBlock)).length)
      cfg toBlock hctx hfetch hwrite
      (b - cfg.FromBlock) (k + 1) cfg.FromBlock (State.init.push .poll)
      (by omega) (by omega) (fun x hx1 hx2 tx htx => hm x hx1 (by omega) tx htx)
      (by rw [hlen0])
    have hnext : cfg.FromBlock + (b - cfg.FromBlock) = b := by omega
    rw [hnext] at h1
    have hlen1 : st1.trace.length
        = 1 + (rangeEvents enc chain cfg.FromBlock (b - cfg.FromBlock)).length := by
      rw [htr1, List.length_append, hlen0]
    have hc : env.ctxDone st1.trace.length = true := by rw [hlen1]; exact hcancel
    have hrun : ExecuteBackup env cfg fuel = ⟨.returned none, st1.info .stopped⟩ := by
      simp [ExecuteBackup, hvalid, hpair, hk, h1, historical, hb2, hc]
    have hfetched : fetchedBlocks (st1.info .stopped).trace
        = blockRange cfg.FromBlock (b - cfg.FromBlock) := by
      simp [State.info, htr1, State.push, State.init, fetchedBlocks_append, fetchedBlocks,
        fetchedBlocks_rangeEvents]
    rw [hrun]
    refine ⟨rfl, hfetched, ?_, ?_⟩
    · intro x hx
      rw [hfetched, mem_blockRange] at hx
      omega
    · simp [State.info, htr1, State.push, State.init, sinkBytes_append, sinkBytes,
        sinkBytes_rangeEvents]
  · intro env1 cfg1 toBlock1 fuel1 lastBlock st hdone
    simp [watch, watchTick, hdone, State.info]

/-- Witness of C5: export from block 1 of a chain at height 5 with one transaction per
block; the check before block 3, made when 7 events are recorded, observes the
cancellation. -/
theorem ExecuteBackup_cancelled_before_block_witness :
    (ExecuteBackup { demoEnv (fun _ => 5) (fun b => [b]) with ctxDone := fun t => decide (t = 7) }
        (demoCfg 1 false) 4).outcome = .returned none ∧
    fetchedBlocks (ExecuteBackup
      { demoEnv (fun _ => 5) (fun b => [b]) with ctxDone := fun t => decide (t = 7) }
        (demoCfg 1 false) 4).state.trace = blockRange 1 (3 - 1) ∧
    sinkBytes (ExecuteBackup
      { demoEnv (fun _ => 5) (fun b => [b]) with ctxDone := fun t => decide (t = 7) }
        (demoCfg 1 false) 4).state.trace = archiveBytes demoEnc (fun b => [b]) 1 (3 - 1) :=
  have h := (ExecuteBackup_cancelled_before_block
    { demoEnv (fun _ => 5) (fun b => [b]) with ctxDone := fun t => decide (t = 7) }
    demoEnc (fun b => [b]) (demoCfg 1 false) 5 3 4 (by decide) rfl (by decide) (by decide)
    (by decide) (by decide) (by decide) (fun _ _ _ => rfl) (fun _ _ _ _ _ => rfl)
    (fun _ _ _ => rfl) (by decide)).1
  ⟨h.1, h.2.1, h.2.2.2⟩

/-! ## Fetch failures -/

theorem OnlyWrites_nil : OnlyWrites [] := by
  intro e he
  cases he

theorem OnlyWrites_append {a b : List Event} (ha : OnlyWrites a) (hb : OnlyWrites b) :
    OnlyWrites (a ++ b) := by
  intro e he
  rcases List.mem_append.mp he with h | h
  · exact ha e h
  · exact hb e h

theorem fetchedBlocks_onlyWrites (ws : List Event) (h : OnlyWrites ws) :
    fetchedBlocks ws = [] := by
  induction ws with
  | nil => rfl
  | cons e rest ih =>
    obtain ⟨bs, hbs⟩ := h e (by simp)
    subst hbs
    simp [fetchedBlocks, ih (fun e1 he1 => h e1 (by simp [he1]))]

theorem writerWrite_trace (env : Env Tx) (p : Bytes) (st : State) :
    ∃ ws, OnlyWrites ws ∧ (writerWrite env p st).2.trace = st.trace ++ ws := by
  unfold writerWrite
  split
  · exact ⟨[.write p], by intro e he; exact ⟨p, by simpa using he⟩, rfl⟩
  · rename_i n e _
    exact ⟨[.write (p.take n)], by intro e he; exact ⟨p.take n, by simpa using he⟩, rfl⟩

theorem writeTxData_trace (env : Env Tx) (d : TxData Tx) (st : State) :
    ∃ ws, OnlyWrites ws ∧ (writeTxData env d st).2.trace = st.trace ++ ws := by
  unfold writeTxData
  split
  · exact ⟨[], OnlyWrites_nil, by simp⟩
  · rename_i jsonData _
    obtain ⟨ws1, hw1, h1⟩ := writerWrite_trace env jsonData st
    split
    · rename_i err st1 heq
      rw [heq] at h1
      exact ⟨ws1, hw1, h1⟩
    · rename_i st1 heq
      rw [heq] at h1
      obtain ⟨ws2, hw2, h2⟩ := writerWrite_trace env [10] st1
      split
      · rename_i err st2 heq2
        rw [heq2] at h2
        exact ⟨ws1 ++ ws2, OnlyWrites_append hw1 hw2, by
          simp only [] at h1 h2 ⊢; rw [h2, h1, List.append_assoc]⟩
      · rename_i st2 heq2
        rw [heq2] at h2
        exact ⟨ws1 ++ ws2, OnlyWrites_append hw1 hw2, by
          simp only [] at h1 h2 ⊢; rw [h2, h1, List.append_assoc]⟩

theorem writeBlockTxs_trace (env : Env Tx) (b : Nat) (txs : List Tx) : ∀ st : State,
    ∃ ws, OnlyWrites ws ∧ (writeBlockTxs env b txs st).2.trace = st.trace ++ ws := by
  induction txs with
  | nil => intro st; exact ⟨[], OnlyWrites_nil, by simp [writeBlockTxs]⟩
  | cons tx rest ih =>
    intro st
    obtain ⟨ws1, hw1, h1⟩ := writeTxData_trace env ⟨tx, b, 0⟩ st
    unfold writeBlockTxs
    split
    · rename_i err st1 heq
      rw [heq] at h1
      exact ⟨ws1, hw1, h1⟩
    · rename_i st1 heq
      rw [heq] at h1
      obtain ⟨ws2, hw2, h2⟩ := ih st1
      exact ⟨ws1 ++ ws2, OnlyWrites_append hw1 hw2, by
        simp only [] at h1 ⊢; rw [h2, h1, List.append_assoc]⟩

/-- What `fetchAndWrite` adds to the trace: the fetch, then writes only. -/
theorem fetchAndWrite_trace (env : Env Tx) (cfg : Config) (toBlock b : Nat) (st : State) :
    ∃ ws, OnlyWrites ws ∧
      (fetchAndWrite env cfg toBlock b st).2.trace = st.trace ++ .fetch b :: ws := by
  unfold fetchAndWrite
  split
  · exact ⟨[], OnlyWrites_nil, rfl⟩
  · rename_i txs _
    split
    · exact ⟨[], OnlyWrites_nil, rfl⟩
    · obtain ⟨ws, hw, h⟩ := writeBlockTxs_trace env b txs (st.push (.fetch b))
      split
      · rename_i err st1 heq
        rw [heq] at h
        exact ⟨ws, hw, by simp only [] at h ⊢; rw [h]; simp [State.push]⟩
      · rename_i st1 heq
        rw [heq] at h
        exact ⟨ws, hw, by
          simp only [] at h ⊢; simp [logProgress, State.info, h, State.push]⟩

/-- A failed fetch makes `fetchAndWrite` return the wrapped error at once. -/
theorem fetchAndWrite_fetch_error (env : Env Tx) (cfg : Config) (toBlock b : Nat)
    (st : State) (e : Error) (he : env.GetBlockTransactions st.trace.length b = .error e) :
    fetchAndWrite env cfg toBlock b st
      = (some (.wrap "unable to fetch block transactions" e), st.push (.fetch b)) := by
  simp [fetchAndWrite, he]

theorem CleanTrace_append_writes (env : Env Tx) (tr ws : List Event)
    (h : CleanTrace env tr) (hw : OnlyWrites ws) : CleanTrace env (tr ++ ws) := by
  intro i b hi
  by_cases hlt : i < tr.length
  · rw [List.getElem?_append_left hlt] at hi
    exact h i b hi
  · rw [List.getElem?_append_right (Nat.le_of_not_lt hlt)] at hi
    obtain ⟨bs, hbs⟩ := hw _ (List.getElem?_mem hi)
    cases hbs

theorem CleanTrace_append_other (env : Env Tx) (tr : List Event) (ev : Event)
    (h : CleanTrace env tr) (hev : ∀ b, ev ≠ .fetch b) : CleanTrace env (tr ++ [ev]) := by
  intro i b hi
  by_cases hlt : i < tr.length
  · rw [List.getElem?_append_left hlt] at hi
    exact h i b hi
  · rw [List.getElem?_append_right (Nat.le_of_not_lt hlt)] at hi
    have hmem := List.getElem?_mem hi
    simp at hmem
    exact absurd hmem.symm (hev b)

theorem CleanTrace_append_fetch (env : Env Tx) (tr : List Event) (b : Nat) (txs : List Tx)
    (h : CleanTrace env tr) (hb : env.GetBlockTransactions tr.length b = .ok txs) :
    CleanTrace env (tr ++ [.fetch b]) := by
  intro i b1 hi
  by_cases hlt : i < tr.length
  · rw [List.getElem?_append_left hlt] at hi
    exact h i b1 hi
  · have hge : tr.length ≤ i := Nat.le_of_not_lt hlt
    rw [List.getElem?_append_right hge] at hi
    have hidx : i - tr.length = 0 := by
      by_contra hne
      have : 1 ≤ i - tr.length := Nat.one_le_iff_ne_zero.mpr hne
      rw [List.getElem?_eq_none (by simpa using this)] at hi
      cases hi
    rw [hidx] at hi
    simp at hi
    have hi2 : i = tr.length := by omega
    subst hi2
    subst hi
    exact ⟨txs, hb⟩

/-- After `fetchAndWrite` the trace is still free of failed fetches, unless its own fetch
failed, in which case it returned the wrapped error with the fetch as last event. -/
theorem fetchAndWrite_clean (env : Env Tx) (cfg : Config) (toBlock b : Nat) (st : State)
    (h : CleanTrace env st.trace) :
    CleanTrace env (fetchAndWrite env cfg toBlock b st).2.trace ∨
    StoppedAtFetch env (fetchAndWrite env cfg toBlock b st).1
      (fetchAndWrite env cfg toBlock b st).2.trace := by
  cases hb : env.GetBlockTransactions st.trace.length b with
  | error e =>
    right
    rw [fetchAndWrite_fetch_error env cfg toBlock b st e hb]
    exact ⟨st.trace, b, e, rfl, h, hb, rfl⟩
  | ok txs =>
    left
    obtain ⟨ws, hw, htr⟩ := fetchAndWrite_trace env cfg toBlock b st
    rw [htr]
    have h1 := CleanTrace_append_fetch env st.trace b txs h hb
    have h2 := CleanTrace_append_writes env (st.trace ++ [.fetch b]) ws h1 hw
    simpa using h2

theorem historical_clean (env : Env Tx) (cfg : Config) (toBlock : Nat) (fuel : Nat) :
    ∀ (b : Nat) (st : State), CleanTrace env st.trace →
    LoopClean env (historical env cfg toBlock fuel b st) := by
  induction fuel with
  | zero => intro b st h; exact h
  | succ fuel ih =>
    intro b st h
    unfold historical
    split
    · split
      · exact Or.inl h
      · have hf := fetchAndWrite_clean env cfg toBlock b st h
        split
        · rename_i fetchErr st1 heq
          rw [heq] at hf
          exact hf
        · rename_i st1 heq
          rw [heq] at hf
          rcases hf with hc | ⟨pre, b1, e, _, _, _, hnone⟩
          · exact ih _ st1 hc
          · cases hnone
    · exact h

theorem catchUp_clean (env : Env Tx) (cfg : Config) (toBlock latest : Nat) (fuel : Nat) :
    ∀ (b : Nat) (st : State), CleanTrace env st.trace →
    LoopClean env (catchUp env cfg toBlock latest fuel b st) := by
  induction fuel with
  | zero => intro b st h; exact h
  | succ fuel ih =>
    intro b st h
    unfold catchUp
    split
    · have hf := fetchAndWrite_clean env cfg toBlock b st h
      split
      · rename_i fetchErr st1 heq
        rw [heq] at hf
        exact hf
      · rename_i st1 heq
        rw [heq] at hf
        rcases hf with hc | ⟨pre, b1, e, _, _, _, hnone⟩
        · exact ih _ st1 hc
        · cases hnone
    · exact h

theorem watchTick_clean (env : Env Tx) (cfg : Config) (toBlock fuel lastBlock : Nat)
    (st : State) (h : CleanTrace env st.trace) :
    TickClean env (watchTick env cfg toBlock fuel lastBlock st) := by
  have hpoll : CleanTrace env (st.push .poll).trace :=
    CleanTrace_append_other env st.trace .poll h (by intro b hb; cases hb)
  unfold watchTick
  split
  · exact Or.inl h
  · split
    · exact Or.inl hpoll
    · rename_i latest _
      split
      · exact hpoll
      · have hc := catchUp_clean env cfg toBlock latest fuel ((lastBlock + 1) % U64)
          (st.push .poll) hpoll
        generalize catchUp env cfg toBlock latest fuel ((lastBlock + 1) % U64)
          (st.push .poll) = l at hc
        cases l <;> exact hc

theorem watch_clean (env : Env Tx) (cfg : Config) (toBlock : Nat) (fuel : Nat) :
    ∀ (lastBlock : Nat) (st : State), CleanTrace env st.trace →
    RunClean env (watch env cfg toBlock fuel lastBlock st) := by
  induction fuel with
  | zero => intro lastBlock st h; exact Or.inl h
  | succ fuel ih =>
    intro lastBlock st h
    have ht := watchTick_clean env cfg toBlock fuel lastBlock st h
    unfold watch
    generalize watchTick env cfg toBlock fuel lastBlock st = t at ht
    cases t with
    | next lastBlock1 st1 => exact ih lastBlock1 st1 ht
    | running st1 => exact Or.inl ht
    | returned err st1 =>
      rcases ht with hc | hs
      · exact Or.inl hc
      · exact Or.inr ⟨err, rfl, hs⟩

theorem ExecuteBackup_clean (env : Env Tx) (cfg : Config) (fuel : Nat) :
    RunClean env (ExecuteBackup env cfg fuel) := by
  have hnil : CleanTrace env ([] : List Event) := by
    intro i b hi
    simp at hi
  have hpoll : CleanTrace env (State.init.push .poll).trace :=
    CleanTrace_append_other env [] .poll hnil (by intro b hb; cases hb)
  unfold ExecuteBackup
  split
  · exact Or.inl hnil
  · have hst := determineRightBound_state env cfg.ToBlock State.init
    split
    · rename_i boundErr st heq
      rw [heq] at hst
      simp only [] at hst
      rw [hst]
      exact Or.inl hpoll
    · rename_i toBlock st heq
      rw [heq] at hst
      simp only [] at hst
      subst hst
      have hh := historical_clean env cfg toBlock fuel cfg.FromBlock _ hpoll
      generalize historical env cfg toBlock fuel cfg.FromBlock (State.init.push .poll) = l
        at hh
      cases l with
      | returned err st1 =>
        rcases hh with hc | hs
        · exact Or.inl hc
        · exact Or.inr ⟨err, rfl, hs⟩
      | running st1 => exact Or.inl hh
      | exited st1 =>
        simp only []
        split
        · exact watch_clean env cfg toBlock fuel toBlock st1 hh
        · exact Or.inl hh

/-- C6: whenever a call of `GetBlockTransactions` made by `ExecuteBackup` (in the
historical loop or in a watch catch-up) is answered with an error, `ExecuteBackup`
returns an error wrapping it, and that fetch is the last event of the run: no client
call and no write follows it, so the writer holds what it held before the fetch. -/
theorem ExecuteBackup_fetch_failure_is_fatal (env : Env Tx) (cfg : Config) (fuel : Nat)
    (i b : Nat) (e : Error)
    (hfetch : (ExecuteBackup env cfg fuel).state.trace[i]? = some (.fetch b))
    (hfail : env.GetBlockTransactions i b = .error e) :
    (∃ err, (ExecuteBackup env cfg fuel).outcome = .returned (some err) ∧
      wrapsErr err e = true) ∧
    (ExecuteBackup env cfg fuel).state.trace.length = i + 1 ∧
    sinkBytes (ExecuteBackup env cfg fuel).state.trace
      = sinkBytes ((ExecuteBackup env cfg fuel).state.trace.take i) := by
  rcases ExecuteBackup_clean env cfg fuel with hc | ⟨err, hout, pre, b1, e1, htr, hpre, hb1, herr⟩
  · obtain ⟨txs, htxs⟩ := hc i b hfetch
    rw [hfail] at htxs
    cases htxs
  · rw [htr] at hfetch ⊢
    have hi : i = pre.length := by
      by_cases hlt : i < pre.length
      · rw [List.getElem?_append_left hlt] at hfetch
        obtain ⟨txs, htxs⟩ := hpre i b hfetch
        rw [hfail] at htxs
        cases htxs
      · have hlen := (List.getElem?_eq_some.mp hfetch).1
        simp at hlen
        omega
    subst hi
    simp at hfetch
    subst hfetch
    rw [hfail] at hb1
    cases hb1
    subst herr
    refine ⟨⟨_, hout, ?_⟩, by simp, ?_⟩
    · cases e <;> simp [wrapsErr]
    · simp [sinkBytes_append, sinkBytes]

/-- Witness of C6: a chain at height 5 whose block 3 cannot be fetched; the fetch of
block 3 in the historical loop is event 7 of the run and the run ends there.  And a
chain at height 2 that grows to 5, whose block 4 cannot be fetched; the fetch of block 4
in the watch catch-up is event 11 of the run and the run ends there. -/
theorem ExecuteBackup_fetch_failure_is_fatal_witness :
    ((∃ err, (ExecuteBackup { demoEnv (fun _ => 5) (fun b => [b]) with
        GetBlockTransactions := fun _ b => if b = 3 then .error (.base "boom") else .ok [b] }
        (demoCfg 1 true) 9).outcome = .returned (some err) ∧
      wrapsErr err (.base "boom") = true) ∧
    (ExecuteBackup { demoEnv (fun _ => 5) (fun b => [b]) with
        GetBlockTransactions := fun _ b => if b = 3 then .error (.base "boom") else .ok [b] }
        (demoCfg 1 true) 9).state.trace.length = 7 + 1) ∧
    ((∃ err, (ExecuteBackup { demoEnv (fun t => if t = 0 then 2 else 5) (fun b => [b]) with
        GetBlockTransactions := fun _ b => if b = 4 then .error (.base "boom") else .ok [b] }
        (demoCfg 1 true) 9).outcome = .returned (some err) ∧
      wrapsErr err (.base "boom") = true) ∧
    (ExecuteBackup { demoEnv (fun t => if t = 0 then 2 else 5) (fun b => [b]) with
        GetBlockTransactions := fun _ b => if b = 4 then .error (.base "boom") else .ok [b] }
        (demoCfg 1 true) 9).state.trace.length = 11 + 1) :=
  have h := ExecuteBackup_fetch_failure_is_fatal { demoEnv (fun _ => 5) (fun b => [b]) with
        GetBlockTransactions := fun _ b => if b = 3 then .error (.base "boom") else .ok [b] }
        (demoCfg 1 true) 9 7 3 (.base "boom") (by decide) rfl
  have h2 := ExecuteBackup_fetch_failure_is_fatal
        { demoEnv (fun t => if t = 0 then 2 else 5) (fun b => [b]) with
        GetBlockTransactions := fun _ b => if b = 4 then .error (.base "boom") else .ok [b] }
        (demoCfg 1 true) 9 11 4 (.base "boom") (by decide) rfl
  ⟨⟨h.1, h.2.1⟩, ⟨h2.1, h2.2.1⟩⟩

/-! ## Order of the fetched blocks -/

/-- C3 (counterexample): a chain whose reported height drops from 5 to 3 at the first watch
poll and is 5 again at the second.  `ExecuteBackup` fetches blocks 1 to 5, then blocks 4
and 5 a second time, so the fetched sequence is not contiguous. -/
theorem ExecuteBackup_refetches_after_height_drop :
    fetchedBlocks (ExecuteBackup (demoEnv (fun t => if t = 6 then 3 else 5) (fun _ => []))
      (demoCfg 1 true) 9).state.trace = [1, 2, 3, 4, 5, 4, 5] ∧
    ¬ Contiguous (fetchedBlocks (ExecuteBackup
      (demoEnv (fun t => if t = 6 then 3 else 5) (fun _ => [])) (demoCfg 1 true) 9).state.trace) := by
  have h : fetchedBlocks (ExecuteBackup (demoEnv (fun t => if t = 6 then 3 else 5)
      (fun _ => [])) (demoCfg 1 true) 9).state.trace = [1, 2, 3, 4, 5, 4, 5] := by decide
  refine ⟨h, ?_⟩
  rw [h]
  intro hc
  have hchain := hc.chain
  simp at hchain

theorem FetchInv_snoc (tr tr1 : List Event) (b : Nat) (h : FetchInv tr b)
    (htr : fetchedBlocks tr1 = fetchedBlocks tr ++ [b]) : FetchInv tr1 (b + 1) := by
  refine ⟨?_, ?_⟩
  · rw [htr]
    refine ⟨List.Chain'.append h.1.chain (List.chain'_singleton b) ?_⟩
    intro x hx y hy
    simp at hy
    subst hy
    exact (h.2 x hx).symm
  · intro x hx
    rw [htr, List.getLast?_concat] at hx
    simp at hx
    omega

theorem fetchAndWrite_fetched (env : Env Tx) (cfg : Config) (toBlock b : Nat) (st : State) :
    fetchedBlocks (fetchAndWrite env cfg toBlock b st).2.trace
      = fetchedBlocks st.trace ++ [b] ∧
    st.trace.length < (fetchAndWrite env cfg toBlock b st).2.trace.length := by
  obtain ⟨ws, hw, htr⟩ := fetchAndWrite_trace env cfg toBlock b st
  rw [htr]
  refine ⟨?_, by simp⟩
  simp [fetchedBlocks_append, fetchedBlocks, fetchedBlocks_onlyWrites ws hw]

theorem historical_contiguous (env : Env Tx) (cfg : Config) (toBlock : Nat)
    (hmax : toBlock < maxU64) (fuel : Nat) : ∀ (b : Nat) (st : State),
    FetchInv st.trace b →
    Contiguous (fetchedBlocks (historical env cfg toBlock fuel b st).state.trace) ∧
    st.trace.length ≤ (historical env cfg toBlock fuel b st).state.trace.length ∧
    (∀ st1, historical env cfg toBlock fuel b st = .exited st1 →
      (b ≤ toBlock → FetchInv st1.trace (toBlock + 1)) ∧ (toBlock < b → st1 = st)) := by
  have hU : maxU64 + 1 = U64 := by decide
  induction fuel with
  | zero =>
    intro b st h
    refine ⟨h.1, le_refl _, ?_⟩
    intro st1 hex
    simp [historical] at hex
  | succ fuel ih =>
    intro b st h
    unfold historical
    by_cases hle : b ≤ toBlock
    · rw [if_pos hle]
      by_cases hc : env.ctxDone st.trace.length = true
      · rw [if_pos hc]
        refine ⟨h.1, le_refl _, ?_⟩
        intro st1 hex
        cases hex
      · rw [if_neg hc]
        obtain ⟨hf, hlen⟩ := fetchAndWrite_fetched env cfg toBlock b st
        have hinv := FetchInv_snoc st.trace _ b h hf
        generalize fetchAndWrite env cfg toBlock b st = r at hf hlen hinv
        obtain ⟨err, st1⟩ := r
        cases err with
        | some fetchErr =>
          refine ⟨hinv.1, Nat.le_of_lt hlen, ?_⟩
          intro st2 hex
          cases hex
        | none =>
          have hmod : (b + 1) % U64 = b + 1 := Nat.mod_eq_of_lt (by omega)
          simp only [hmod]
          obtain ⟨h1, h2, h3⟩ := ih (b + 1) st1 hinv
          refine ⟨h1, by simp only [] at hlen; omega, ?_⟩
          intro st2 hex
          obtain ⟨h4, h5⟩ := h3 st2 hex
          refine ⟨fun _ => ?_, fun hlt => absurd hle (Nat.not_le.mpr hlt)⟩
          by_cases hnext : b + 1 ≤ toBlock
          · exact h4 hnext
          · have hst : st2 = st1 := h5 (by omega)
            have hb : b = toBlock := by omega
            rw [hst]
            rw [← hb]
            exact hinv
    · rw [if_neg hle]
      refine ⟨h.1, le_refl _, ?_⟩
      intro st1 hex
      cases hex
      exact ⟨fun hb => absurd hb hle, fun _ => rfl⟩

theorem catchUp_contiguous (env : Env Tx) (cfg : Config) (toBlock latest : Nat)
    (hmax : latest < maxU64) (fuel : Nat) : ∀ (b : Nat) (st : State),
    FetchInv st.trace b →
    Contiguous (fetchedBlocks (catchUp env cfg toBlock latest fuel b st).state.trace) ∧
    st.trace.length ≤ (catchUp env cfg toBlock latest fuel b st).state.trace.length ∧
    (∀ st1, catchUp env cfg toBlock latest fuel b st = .exited st1 →
      (b ≤ latest → FetchInv st1.trace (latest + 1)) ∧ (latest < b → st1 = st)) := by
  have hU : maxU64 + 1 = U64 := by decide
  induction fuel with
  | zero =>
    intro b st h
    refine ⟨h.1, le_refl _, ?_⟩
    intro st1 hex
    simp [catchUp] at hex
  | succ fuel ih =>
    intro b st h
    unfold catchUp
    by_cases hle : b ≤ latest
    · rw [if_pos hle]
      obtain ⟨hf, hlen⟩ := fetchAndWrite_fetched env cfg toBlock b st
      have hinv := FetchInv_snoc st.trace _ b h hf
      generalize fetchAndWrite env cfg toBlock b st = r at hf hlen hinv
      obtain ⟨err, st1⟩ := r
      cases err with
      | some fetchErr =>
        refine ⟨hinv.1, Nat.le_of_lt hlen, ?_⟩
        intro st2 hex
        cases hex
      | none =>
        have hmod : (b + 1) % U64 = b + 1 := Nat.mod_eq_of_lt (by omega)
        simp only [hmod]
        obtain ⟨h1, h2, h3⟩ := ih (b + 1) st1 hinv
        refine ⟨h1, by simp only [] at hlen; omega, ?_⟩
        intro st2 hex
        obtain ⟨h4, h5⟩ := h3 st2 hex
        refine ⟨fun _ => ?_, fun hlt => absurd hle (Nat.not_le.mpr hlt)⟩
        by_cases hnext : b + 1 ≤ latest
        · exact h4 hnext
        · have hst : st2 = st1 := h5 (by omega)
          have hb : b = latest := by omega
          rw [hst]
          rw [← hb]
          exact hinv
    · rw [if_neg hle]
      refine ⟨h.1, le_refl _, ?_⟩
      intro st1 hex
      cases hex
      exact ⟨fun hb => absurd hb hle, fun _ => rfl⟩

theorem watchTick_contiguous (env : Env Tx) (cfg : Config) (toBlock fuel lastBlock : Nat)
    (st : State)
    (hmono : ∀ t1 t2 a b, t1 ≤ t2 → env.GetLatestBlockNumber t1 = .ok a →
      env.GetLatestBlockNumber t2 = .ok b → a ≤ b)
    (hbound : ∀ t a, env.GetLatestBlockNumber t = .ok a → a < maxU64)
    (h : WatchInv env st lastBlock) :
    TickInv env (watchTick env cfg toBlock fuel lastBlock st) := by
  have hU : maxU64 + 1 = U64 := by decide
  obtain ⟨hcont, hlast, t, a, ht, hta, hla⟩ := h
  have hpollf : fetchedBlocks (st.push .poll).trace = fetchedBlocks st.trace := by
    simp [State.push, fetchedBlocks_append, fetchedBlocks]
  have hpolllen : (st.push .poll).trace.length = st.trace.length + 1 := by
    simp [State.push]
  unfold watchTick
  split
  · exact hcont
  · split
    · show Contiguous (fetchedBlocks (st.push .poll).trace)
      rw [hpollf]
      exact hcont
    · rename_i latest hlatest
      have hle : lastBlock ≤ latest :=
        Nat.le_trans hla (hmono t st.trace.length a latest (Nat.le_of_lt ht) hta hlatest)
      have hlt : latest < maxU64 := hbound _ _ hlatest
      split
      · refine ⟨?_, ?_, t, a, ?_, hta, hla⟩
        · rw [hpollf]; exact hcont
        · rw [hpollf]; exact hlast
        · rw [hpolllen]; omega
      · rename_i hne
        have hmod : (lastBlock + 1) % U64 = lastBlock + 1 := Nat.mod_eq_of_lt (by omega)
        rw [hmod]
        have hinv : FetchInv (st.push .poll).trace (lastBlock + 1) := by
          refine ⟨by rw [hpollf]; exact hcont, ?_⟩
          intro x hx
          rw [hpollf] at hx
          rw [hlast x hx]
        obtain ⟨h1, h2, h3⟩ := catchUp_contiguous env cfg toBlock latest hlt fuel
          (lastBlock + 1) (st.push .poll) hinv
        generalize catchUp env cfg toBlock latest fuel (lastBlock + 1) (st.push .poll) = l
          at h1 h2 h3
        cases l with
        | returned err st1 => exact h1
        | running st1 => exact h1
        | exited st1 =>
          obtain ⟨h4, _⟩ := h3 st1 rfl
          have h5 := h4 (by omega)
          refine ⟨h5.1, ?_, st.trace.length, latest, ?_, hlatest, le_refl _⟩
          · intro x hx
            have := h5.2 x hx
            omega
          · simp only [Loop.state] at h2
            omega

theorem watch_contiguous (env : Env Tx) (cfg : Config) (toBlock : Nat)
    (hmono : ∀ t1 t2 a b, t1 ≤ t2 → env.GetLatestBlockNumber t1 = .ok a →
      env.GetLatestBlockNumber t2 = .ok b → a ≤ b)
    (hbound : ∀ t a, env.GetLatestBlockNumber t = .ok a → a < maxU64)
    (fuel : Nat) : ∀ (lastBlock : Nat) (st : State), WatchInv env st lastBlock →
    Contiguous (fetchedBlocks (watch env cfg toBlock fuel lastBlock st).state.trace) := by
  induction fuel with
  | zero => intro lastBlock st h; exact h.1
  | succ fuel ih =>
    intro lastBlock st h
    have ht := watchTick_contiguous env cfg toBlock fuel lastBlock st hmono hbound h
    unfold watch
    generalize watchTick env cfg toBlock fuel lastBlock st = t at ht
    cases t with
    | next lastBlock1 st1 => exact ih lastBlock1 st1 ht
    | running st1 => exact ht
    | returned err st1 => exact ht

/-- C3 (amended): when the heights the client reports never decrease during the run and
stay below the largest `uint64`, the block numbers `ExecuteBackup` passes to
`GetBlockTransactions`, historical phase and watch phase together, are contiguous: each
is exactly one more than the one fetched before it. -/
theorem ExecuteBackup_fetches_contiguous (env : Env Tx) (cfg : Config) (fuel : Nat)
    (hmono : ∀ t1 t2 a b, t1 ≤ t2 → env.GetLatestBlockNumber t1 = .ok a →
      env.GetLatestBlockNumber t2 = .ok b → a ≤ b)
    (hbound : ∀ t a, env.GetLatestBlockNumber t = .ok a → a < maxU64) :
    Contiguous (fetchedBlocks (ExecuteBackup env cfg fuel).state.trace) := by
  have hnil : Contiguous (fetchedBlocks ([] : List Event)) := ⟨List.chain'_nil⟩
  have hpollf : fetchedBlocks (State.init.push .poll).trace = [] := rfl
  unfold ExecuteBackup
  split
  · exact hnil
  · have hst := determineRightBound_state env cfg.ToBlock State.init
    split
    · rename_i boundErr st heq
      rw [heq] at hst
      simp only [] at hst
      rw [hst]
      show Contiguous (fetchedBlocks (State.init.push .poll).trace)
      rw [hpollf]
      exact hnil
    · rename_i toBlock st heq
      have hto : (determineRightBound env cfg.ToBlock State.init).1 = .ok toBlock := by
        rw [heq]
      obtain ⟨L, hL, hle⟩ := determineRightBound_le env cfg.ToBlock State.init toBlock hto
      have hLmax : L < maxU64 := hbound _ _ hL
      rw [heq] at hst
      simp only [] at hst
      subst hst
      have hinv : FetchInv (State.init.push .poll).trace cfg.FromBlock := by
        refine ⟨by rw [hpollf]; exact hnil, ?_⟩
        intro x hx
        rw [hpollf] at hx
        simp at hx
      obtain ⟨h1, h2, h3⟩ := historical_contiguous env cfg toBlock (by omega) fuel
        cfg.FromBlock (State.init.push .poll) hinv
      generalize historical env cfg toBlock fuel cfg.FromBlock (State.init.push .poll) = l
        at h1 h2 h3
      cases l with
      | returned err st1 => exact h1
      | running st1 => exact h1
      | exited st1 =>
        simp only []
        split
        · refine watch_contiguous env cfg toBlock hmono hbound fuel toBlock st1 ?_
          obtain ⟨h4, h5⟩ := h3 st1 rfl
          refine ⟨h1, ?_, 0, L, ?_, hL, hle⟩
          · intro x hx
            by_cases hfrom : cfg.FromBlock ≤ toBlock
            · have := (h4 hfrom).2 x hx
              omega
            · have hst1 : st1 = State.init.push .poll := h5 (by omega)
              rw [hst1, hpollf] at hx
              simp at hx
          · simp only [Loop.state] at h2
            have : (State.init.push .poll).trace.length = 1 := rfl
            omega
        · exact h1

/-- Witness of C3 (amended): a chain at height 2 when the bound is resolved and at height
4 from the first watch poll on. -/
theorem ExecuteBackup_fetches_contiguous_witness :
    Contiguous (fetchedBlocks (ExecuteBackup
      (demoEnv (fun t => if t = 0 then 2 else 4) (fun b => [b])) (demoCfg 1 true) 9).state.trace) :=
  ExecuteBackup_fetches_contiguous
    (demoEnv (fun t => if t = 0 then 2 else 4) (fun b => [b])) (demoCfg 1 true) 9
    (by
      intro t1 t2 a b hle h1 h2
      simp only [demoEnv, Except.ok.injEq] at h1 h2
      subst h1 h2
      by_cases ht1 : t1 = 0
      · by_cases ht2 : t2 = 0 <;> simp [ht1, ht2]
      · have ht2 : t2 ≠ 0 := by omega
        simp [ht1, ht2])
    (by
      intro t a h
      simp only [demoEnv, Except.ok.injEq] at h
      subst h
      by_cases ht : t = 0 <;> simp [ht, maxU64, U64])

end Theorems

end TxArchive
